import Mathlib

/-!
Verification of the participant poller (`poller.py`).

The embedding mirrors the Python classes `Participant` and `Poller`.
Mutable aliasing between `Poller._participants` (the roster, in loaded
order) and `Poller._to_poll` (the working set) is modelled by keeping one
canonical list of participants and letting `toPoll` be a list of indices
into it: reordering the working set permutes indices, and a counter update
through the working set is an update of the canonical list, hence visible
through both views, exactly as reference aliasing behaves in the source.

`random.shuffle` is modelled by a caller-supplied reordering function `σ`;
theorems quantify over every `σ` that produces a permutation.
Python `IndexError` is `none` / `.error .indexError`, `StopIteration` is
`.error .stopIteration`, and the two `ValueError`s raised by `Poller.open`
are the constructors of `LoadErr`.
-/

namespace RandoPoll

/-- Mirror of class `Participant` (`Participant.__init__`): one
participant's name and cumulative counters.  Counters are Python integers. -/
structure Participant where
  name : String
  polled : Int
  correct : Int
  attempted : Int
  excused : Int
deriving Repr, DecidableEq, Inhabited

/-- Mirror of `Participant.__str__`: the five fields comma-joined, for
saving in the csv file. -/
def Participant.toRow (x : Participant) : String :=
  x.name ++ "," ++ toString x.polled ++ "," ++ toString x.correct ++ ","
    ++ toString x.attempted ++ "," ++ toString x.excused

/-- The four outcome-reporting methods of `Poller`
(`attempted` / `correct` / `excused` / `missing`). -/
inductive Kind
  | attempted
  | correct
  | excused
  | missing
deriving Repr, DecidableEq

/-- Counter update performed by one outcome method: `Poller._polled`
increments `polled`, and the method additionally increments its own column
(`missing` increments only `polled`). -/
def bump (k : Kind) (x : Participant) : Participant :=
  match k with
  | .attempted => { x with polled := x.polled + 1, attempted := x.attempted + 1 }
  | .correct => { x with polled := x.polled + 1, correct := x.correct + 1 }
  | .excused => { x with polled := x.polled + 1, excused := x.excused + 1 }
  | .missing => { x with polled := x.polled + 1 }

/-- Mirror of the state set up by `Poller.__init__`.  `toPoll` holds indices
into `participants` (see top comment on aliasing).  `index = -1` is the
"not started" cursor value the constructor and `__iter__` install. -/
structure Poller where
  filename : String
  index : Int
  lastPolled : Int
  participants : List Participant
  stopped : Bool
  toPoll : List Nat
  totalPolled : Nat
deriving Repr, DecidableEq

/-- `Poller.__init__`: fresh state for a filename. -/
def Poller.init (filename : String) : Poller :=
  { filename := filename, index := -1, lastPolled := 0, participants := [],
    stopped := false, toPoll := [], totalPolled := 0 }

/-- Python list indexing: a non-negative index must be below the length, a
negative index counts from the back; `none` is an `IndexError`. -/
def pyIdx (len : Nat) (i : Int) : Option Nat :=
  if 0 ≤ i then
    if i < (len : Int) then some i.toNat else none
  else
    if -i ≤ (len : Int) then some (len - (-i).toNat) else none

/-- Dereference a working-set index to its participant (total wrapper around
list access; all states the theorems speak about keep indices in range). -/
def getPart (p : Poller) (idx : Nat) : Participant :=
  p.participants.getD idx default

/-- Comparison used by `Poller.shuffle`'s sort (`key=lambda x: x.polled`):
indices compare by the `polled` count of the participant they refer to. -/
def polledLe (ps : List Participant) (i j : Nat) : Prop :=
  (ps.getD i default).polled ≤ (ps.getD j default).polled

instance (ps : List Participant) : DecidableRel (polledLe ps) :=
  fun i j => Int.decLe _ _

instance (ps : List Participant) : IsTrans Nat (polledLe ps) :=
  ⟨fun _ _ _ => le_trans⟩

instance (ps : List Participant) : IsTotal Nat (polledLe ps) :=
  ⟨fun _ _ => le_total _ _⟩

/-- `Poller.shuffle`: apply the caller-supplied reordering `σ` (the model of
`random.shuffle`), then Python's stable `sort` on the `polled` key
(insertion sort is the stable sort on this key; stable sorts over one
total preorder coincide), then record `_last_polled` from the new front
element (`self._to_poll[0].polled`; Python would raise `IndexError` on an
empty working set, the model totalises that corner with a default). -/
def Poller.shuffle (σ : List Nat → List Nat) (p : Poller) : Poller :=
  let t := List.insertionSort (polledLe p.participants) (σ p.toPoll)
  { p with toPoll := t,
           lastPolled := (p.participants.getD (t.headD 0) default).polled }

/-- `Poller.stop`: set the stopped flag; checked by the next `__next__`. -/
def Poller.stop (p : Poller) : Poller :=
  { p with stopped := true }

/-- `Poller.total`: the session-wide count of recorded outcomes. -/
def Poller.total (p : Poller) : Nat :=
  p.totalPolled

/-- `Poller.__iter__`: shuffle, reset the cursor to the "not started" value
`-1`, and clear the stopped flag. -/
def Poller.iter (σ : List Nat → List Nat) (p : Poller) : Poller :=
  { p.shuffle σ with index := -1, stopped := false }

/-- `Poller.current_participant`: `self._to_poll[self._index].name` under
Python indexing (so a negative cursor reads from the back of the working
set); `none` is an `IndexError`. -/
def Poller.current_participant (p : Poller) : Option String :=
  (pyIdx p.toPoll.length p.index).map fun j =>
    (getPart p (p.toPoll.getD j 0)).name

/-- Shared body of `Poller.attempted` / `correct` / `excused` / `missing`:
locate `self._to_poll[self._index]` under Python indexing (`none` is an
`IndexError`), apply `_polled` plus the method's own column increment to
that participant in place, and increment `_total_polled`. -/
def Poller.recordOutcome (k : Kind) (p : Poller) : Option Poller :=
  (pyIdx p.toPoll.length p.index).map fun j =>
    let idx := p.toPoll.getD j 0
    { p with participants := p.participants.set idx (bump k (getPart p idx)),
             totalPolled := p.totalPolled + 1 }

/-- `Poller.attempted`. -/
def Poller.attempted (p : Poller) : Option Poller :=
  p.recordOutcome .attempted

/-- `Poller.correct`. -/
def Poller.correct (p : Poller) : Option Poller :=
  p.recordOutcome .correct

/-- `Poller.excused`. -/
def Poller.excused (p : Poller) : Option Poller :=
  p.recordOutcome .excused

/-- `Poller.missing`. -/
def Poller.missing (p : Poller) : Option Poller :=
  p.recordOutcome .missing

/-- Errors `__next__` can raise. -/
inductive NextErr
  | stopIteration
  | indexError
deriving Repr, DecidableEq

instance {ε α : Type} [DecidableEq ε] [DecidableEq α] : DecidableEq (Except ε α) :=
  fun a b =>
    match a, b with
    | .ok x, .ok y =>
      if h : x = y then .isTrue (h ▸ rfl) else .isFalse (fun hc => h (Except.ok.inj hc))
    | .error x, .error y =>
      if h : x = y then .isTrue (h ▸ rfl) else .isFalse (fun hc => h (Except.error.inj hc))
    | .ok _, .error _ => .isFalse (fun hc => Except.noConfusion hc)
    | .error _, .ok _ => .isFalse (fun hc => Except.noConfusion hc)

/-- `Poller.__next__`, instrumented with whether this call re-shuffled
(i.e. began a new pass).  Faithful to the source: raise `StopIteration`
when stopped; advance the cursor; if the cursor runs past the end of the
working set (checked first, as Python's short-circuit `or` does) or the
participant at the cursor has `polled` strictly above `_last_polled`,
shuffle and reset the cursor to `0`; return `current_participant()`.
(The source advances `self._index` before testing; since neither `shuffle`
nor the tests read the cursor, writing the advanced cursor into each branch
directly is observably identical.) -/
def Poller.nextR (σ : List Nat → List Nat) (p : Poller) :
    Except NextErr (String × Poller × Bool) :=
  if p.stopped then .error .stopIteration
  else
    let i := p.index + 1
    let reshuffle : Bool :=
      decide ((p.toPoll.length : Int) ≤ i) ||
        decide (p.lastPolled < (getPart p (p.toPoll.getD i.toNat 0)).polled)
    let p2 : Poller :=
      if reshuffle then { p.shuffle σ with index := 0 } else { p with index := i }
    match p2.current_participant with
    | some s => .ok (s, p2, reshuffle)
    | none => .error .indexError

/-- `Poller.__next__` as the caller sees it: the returned name and the new
state. -/
def Poller.next (σ : List Nat → List Nat) (p : Poller) :
    Except NextErr (String × Poller) :=
  (p.nextR σ).map fun r => (r.1, r.2.1)

/-- Errors `Poller.open` can raise (both are `ValueError` in the source,
with distinct messages carrying the filename and, for a malformed line, the
line itself). -/
inductive LoadErr
  | malformed (filename line : String)
  | noParticipants (filename : String)
deriving Repr, DecidableEq

/-- Whitespace stripped by Python's `int()` before parsing (ASCII part of
`str.strip`). -/
def isPySpace (c : Char) : Bool :=
  c == ' ' || c == '\t' || c == '\n' || c == '\r' ||
    c == Char.ofNat 11 || c == Char.ofNat 12

/-- Continuation of a digit run accepted by Python's `int()`: digits with
single underscores allowed strictly between digits. -/
def digitsTail : List Char → Bool
  | [] => true
  | c :: rest =>
    if c.isDigit then digitsTail rest
    else if c == '_' then
      match rest with
      | [] => false
      | d :: r => d.isDigit && digitsTail r
    else false

/-- Nonempty digit run accepted by Python's `int()` after the optional
sign: starts with a digit, underscores only between digits. -/
def digitsRun : List Char → Bool
  | [] => false
  | c :: rest => c.isDigit && digitsTail rest

/-- Numeric value of a digit run, skipping grouping underscores. -/
def digitVal (cs : List Char) : Int :=
  cs.foldl (fun acc c =>
    if c == '_' then acc else acc * 10 + ((c.toNat : Int) - 48)) 0

/-- Python `int(str)`: strip surrounding whitespace, accept one optional
sign, then a digit run; `none` models the `ValueError`. -/
def pyInt (s : List Char) : Option Int :=
  let cs := ((s.dropWhile isPySpace).reverse.dropWhile isPySpace).reverse
  match cs with
  | '-' :: rest => if digitsRun rest then some (-(digitVal rest)) else none
  | '+' :: rest => if digitsRun rest then some (digitVal rest) else none
  | _ => if digitsRun cs then some (digitVal cs) else none

/-- Python's `str.split(",")`: cut at every comma, keeping empty pieces
(`"".split(",") == [""]`). -/
def splitComma : List Char → List (List Char)
  | [] => [[]]
  | c :: rest =>
    let r := splitComma rest
    if c == ',' then [] :: r
    else
      match r with
      | [] => [[c]]
      | h :: t => (c :: h) :: t

/-- Loop body of `Poller.open` for one line: split on commas, require
exactly five fields (the tuple unpack), parse the four numeric fields with
`int()`; `none` models the caught `ValueError`. -/
def parseLine (line : String) : Option Participant :=
  match splitComma line.toList with
  | [name, polled, correct, attempted, excused] =>
    match pyInt polled, pyInt correct, pyInt attempted, pyInt excused with
    | some a, some b, some c, some d =>
      some { name := String.mk name, polled := a, correct := b,
             attempted := c, excused := d }
    | _, _, _, _ => none
  | _ => none

/-- The line loop of `Poller.open`: skip lines equal to the empty string,
abort with the malformed-line error (carrying filename and line) at the
first failing line, otherwise collect one participant per line in order. -/
def parseLines (filename : String) : List String → Except LoadErr (List Participant)
  | [] => .ok []
  | line :: rest =>
    if line = "" then parseLines filename rest
    else
      match parseLine line with
      | none => .error (.malformed filename line)
      | some part => (parseLines filename rest).map (part :: ·)

/-- `Poller.open` (named `load` here because `open` is reserved in Lean):
parse the file's lines, append the parsed participants to the roster in
file order, fail when the roster ends up empty, and set `_to_poll` to a
fresh shallow copy of the roster (`self._participants[:]` — the same
participant objects, modelled as the identity index list). -/
def Poller.load (lines : List String) (p : Poller) : Except LoadErr Poller :=
  match parseLines p.filename lines with
  | .error e => .error e
  | .ok parsed =>
    let parts := p.participants ++ parsed
    if parts.length = 0 then .error (.noParticipants p.filename)
    else .ok { p with participants := parts, toPoll := List.range parts.length }

/-- `Poller.save`: the lines written back to the file — one serialized row
with a trailing newline per roster participant, in roster order. -/
def Poller.save (p : Poller) : List String :=
  p.participants.map fun x => x.toRow ++ "\n"

/-- `Poller.__exit__`: `save()` runs only when the `with` block finished
without an active exception (`exc_type is None`).  `exc` says whether an
exception is active, `before` is the file content on entry; the result is
the file content after exit. -/
def Poller.exitFile (exc : Bool) (before : List String) (p : Poller) : List String :=
  if exc then before else p.save

/-- Modelling assumption on each reordering standing in for
`random.shuffle`: it permutes its input. -/
def IsReorder (σ : List Nat → List Nat) : Prop :=
  ∀ l : List Nat, (σ l).Perm l

/-- Name of the participant at position `j` of the working set. -/
def nameAt (p : Poller) (j : Nat) : String :=
  (getPart p (p.toPoll.getD j 0)).name

/-- One fairness step of the driving loop: a `next()` call (with its
potential re-shuffle reordering `σ`) followed by exactly one outcome report
of kind `k`. -/
def stepPair (σ : List Nat → List Nat) (k : Kind) (p : Poller) :
    Except NextErr Poller :=
  match p.next σ with
  | .error e => .error e
  | .ok (_, q) =>
    match q.recordOutcome k with
    | some r => .ok r
    | none => .error .indexError

/-- Run a sequence of `(σ, kind)` fairness steps. -/
def runPairs : List ((List Nat → List Nat) × Kind) → Poller → Except NextErr Poller
  | [], p => .ok p
  | s :: rest, p =>
    match stepPair s.1 s.2 p with
    | .error e => .error e
    | .ok q => runPairs rest q

/-- One polling step for the no-repeat property: a `next()` call, recording
the returned name and whether the call re-shuffled, optionally followed by
one outcome report. -/
def stepPoll (σ : List Nat → List Nat) (k : Option Kind) (p : Poller) :
    Except NextErr ((String × Bool) × Poller) :=
  match p.nextR σ with
  | .error e => .error e
  | .ok (s, q, b) =>
    match k with
    | none => .ok ((s, b), q)
    | some kind =>
      match q.recordOutcome kind with
      | some r => .ok ((s, b), r)
      | none => .error .indexError

/-- Run a sequence of polling steps, collecting the returned names together
with their re-shuffle flags. -/
def runPolls : List ((List Nat → List Nat) × Option Kind) → Poller →
    Except NextErr (List (String × Bool) × Poller)
  | [], p => .ok ([], p)
  | s :: rest, p =>
    match stepPoll s.1 s.2 p with
    | .error e => .error e
    | .ok (r, q) =>
      match runPolls rest q with
      | .error e => .error e
      | .ok (rs, q') => .ok (r :: rs, q')

/-- Any single call a session driver can make on a loaded `Poller`. -/
inductive Op
  | next (σ : List Nat → List Nat)
  | outcome (k : Kind)
  | stop
  | iter (σ : List Nat → List Nat)
  | shuffle (σ : List Nat → List Nat)

/-- Apply one session call. -/
def Op.apply : Op → Poller → Except NextErr Poller
  | .next σ, p => (p.next σ).map (·.2)
  | .outcome k, p =>
    match p.recordOutcome k with
    | some q => .ok q
    | none => .error .indexError
  | .stop, p => .ok p.stop
  | .iter σ, p => .ok (p.iter σ)
  | .shuffle σ, p => .ok (p.shuffle σ)

/-- Run a sequence of session calls. -/
def runOps : List Op → Poller → Except NextErr Poller
  | [], p => .ok p
  | op :: rest, p =>
    match op.apply p with
    | .error e => .error e
    | .ok q => runOps rest q

/-- The reordering carried by a session call (if any) permutes its input. -/
def Op.Reorders : Op → Prop
  | .next σ => IsReorder σ
  | .iter σ => IsReorder σ
  | .shuffle σ => IsReorder σ
  | _ => True

/-- The `polled` counters of the roster, in roster order. -/
def polledVals (p : Poller) : List Int :=
  p.participants.map (·.polled)

/-- Maximum `polled` value among the participants. -/
def maxPolled (p : Poller) : Int :=
  (polledVals p).foldl max ((polledVals p).headD 0)

/-- Minimum `polled` value among the participants. -/
def minPolled (p : Poller) : Int :=
  (polledVals p).foldl min ((polledVals p).headD 0)

/-- Invariant carried through a balanced driving loop: the session is not
stopped, the roster is non-empty, the working set is a permutation of the
roster, every `polled` counter equals `_last_polled` or `_last_polled + 1`,
and the cursor is at least the not-started value `-1`. -/
def Balanced (p : Poller) : Prop :=
  p.stopped = false ∧ p.participants ≠ [] ∧
  p.toPoll.Perm (List.range p.participants.length) ∧
  (∀ x ∈ p.participants, x.polled = p.lastPolled ∨ x.polled = p.lastPolled + 1) ∧
  -1 ≤ p.index

/-- Concrete roster for the stable-sort fairness example: participants
P0..P3 with `polled` counts 3, 1, 1, 2, freshly loaded (working set in
roster order, cursor not started). -/
def exampleRoster : Poller :=
  ⟨"f", -1, 0, [⟨"P0", 3, 0, 0, 0⟩, ⟨"P1", 1, 0, 0, 0⟩,
    ⟨"P2", 1, 0, 0, 0⟩, ⟨"P3", 2, 0, 0, 0⟩], false, [0, 1, 2, 3], 0⟩

end RandoPoll

namespace RandoPoll

/-! Theorems.  Each claim of the specification is settled by exactly one
theorem below; shared helper lemmas come first. -/

theorem shuffle_participants (σ : List Nat → List Nat) (p : Poller) :
    (p.shuffle σ).participants = p.participants := rfl

theorem shuffle_toPoll (σ : List Nat → List Nat) (p : Poller) :
    (p.shuffle σ).toPoll = List.insertionSort (polledLe p.participants) (σ p.toPoll) :=
  rfl

theorem shuffle_lastPolled (σ : List Nat → List Nat) (p : Poller) :
    (p.shuffle σ).lastPolled =
      (getPart p ((p.shuffle σ).toPoll.headD 0)).polled := rfl

theorem shuffle_toPoll_perm (σ : List Nat → List Nat) (p : Poller)
    (hσ : IsReorder σ) : (p.shuffle σ).toPoll.Perm p.toPoll :=
  (List.perm_insertionSort _ _).trans (hσ _)

theorem pairwise_headD {α : Type} {R : α → α → Prop} {l : List α} {d : α}
    (hp : l.Pairwise R) {i : α} (hi : i ∈ l) : l.headD d = i ∨ R (l.headD d) i := by
  cases l with
  | nil => cases hi
  | cons h t =>
    rcases List.mem_cons.mp hi with rfl | hi
    · exact Or.inl rfl
    · exact Or.inr ((List.pairwise_cons.mp hp).1 i hi)

/-- The front element of the sorted working set has minimal `polled`. -/
theorem shuffle_head_min (σ : List Nat → List Nat) (p : Poller) :
    ∀ i ∈ (p.shuffle σ).toPoll,
      (getPart p ((p.shuffle σ).toPoll.headD 0)).polled ≤ (getPart p i).polled := by
  intro i hi
  have hsorted := List.sorted_insertionSort (polledLe p.participants) (σ p.toPoll)
  rw [shuffle_toPoll] at hi ⊢
  rcases pairwise_headD (d := 0) hsorted hi with heq | hle
  · rw [heq]
  · simpa [polledLe, getPart] using hle

theorem current_some (p : Poller) (h0 : 0 ≤ p.index)
    (hlt : p.index < (p.toPoll.length : Int)) :
    p.current_participant = some (nameAt p p.index.toNat) := by
  unfold Poller.current_participant pyIdx nameAt
  rw [if_pos h0, if_pos hlt]
  rfl

theorem nextR_stopped (σ : List Nat → List Nat) (p : Poller)
    (hst : p.stopped = true) : p.nextR σ = .error .stopIteration := by
  unfold Poller.nextR
  rw [if_pos hst]

/-- `__next__` when no re-shuffle fires: the cursor advances one step and
the name there is returned. -/
theorem nextR_advance (σ : List Nat → List Nat) (p : Poller)
    (hst : p.stopped = false) (hidx : -1 ≤ p.index)
    (hlt : p.index + 1 < (p.toPoll.length : Int))
    (hpo : (getPart p (p.toPoll.getD (p.index + 1).toNat 0)).polled ≤ p.lastPolled) :
    p.nextR σ =
      .ok (nameAt p (p.index + 1).toNat, { p with index := p.index + 1 }, false) := by
  unfold Poller.nextR
  rw [if_neg (by simp [hst])]
  simp only
  have hresh : (decide ((p.toPoll.length : Int) ≤ p.index + 1) ||
      decide (p.lastPolled < (getPart p (p.toPoll.getD (p.index + 1).toNat 0)).polled))
      = false := by
    simp only [Bool.or_eq_false_iff, decide_eq_false_iff_not, not_le, not_lt]
    exact ⟨hlt, hpo⟩
  rw [hresh]
  rw [if_neg (by simp)]
  have h0 : (0 : Int) ≤ p.index + 1 := by omega
  have := current_some { p with index := p.index + 1 } h0 hlt
  rw [this]
  rfl

/-- `__next__` when the re-shuffle condition fires: shuffle, cursor `0`,
front name returned. -/
theorem nextR_reshuffle (σ : List Nat → List Nat) (p : Poller)
    (hst : p.stopped = false)
    (hcond : (p.toPoll.length : Int) ≤ p.index + 1 ∨
      p.lastPolled < (getPart p (p.toPoll.getD (p.index + 1).toNat 0)).polled)
    (hne : (p.shuffle σ).toPoll ≠ []) :
    p.nextR σ =
      .ok (nameAt { p.shuffle σ with index := 0 } 0,
        { p.shuffle σ with index := 0 }, true) := by
  unfold Poller.nextR
  rw [if_neg (by simp [hst])]
  simp only
  have hresh : (decide ((p.toPoll.length : Int) ≤ p.index + 1) ||
      decide (p.lastPolled < (getPart p (p.toPoll.getD (p.index + 1).toNat 0)).polled))
      = true := by
    rw [Bool.or_eq_true]
    rcases hcond with h | h
    · exact Or.inl (decide_eq_true h)
    · exact Or.inr (decide_eq_true h)
  rw [hresh]
  rw [if_pos rfl]
  have hlen : (0 : Int) < ((p.shuffle σ).toPoll.length : Int) := by
    have : 0 < (p.shuffle σ).toPoll.length := List.length_pos.mpr hne
    exact_mod_cast this
  have := current_some { p.shuffle σ with index := 0 } (le_refl 0) (by simpa using hlen)
  rw [this]
  rfl

theorem getD_mem_of_lt {l : List Nat} {j : Nat} (h : j < l.length) :
    l.getD j 0 ∈ l := by
  rw [List.getD_eq_getElem?_getD, List.getElem?_eq_getElem h]
  exact List.getElem_mem h

theorem getPart_mem (p : Poller) {i : Nat} (h : i < p.participants.length) :
    getPart p i ∈ p.participants := by
  unfold getPart
  rw [List.getD_eq_getElem?_getD, List.getElem?_eq_getElem h]
  exact List.getElem_mem h

/-- C10: leaving the scoped session (`Poller.__exit__`) normally always
writes `save()`'s lines; leaving it with an active exception performs no
write, so the backing file keeps its previous content and no counter
mutation of the session is persisted. -/
theorem exit_writes_save_iff_no_exception (p : Poller) (before : List String) :
    p.exitFile false before = p.save ∧ p.exitFile true before = before :=
  ⟨rfl, rfl⟩

/-- C4: the code does NOT fail when `next()` has not been called since the
last pass start.  After loading two participants the cursor is the
not-started value `-1`, and Python's negative indexing makes
`current_participant` return the LAST participant of the working set and
`attempted` silently bump that participant's counters — no
`NoActiveSelectionError` (nor any error) is raised. -/
theorem notStarted_cursor_hits_last_participant :
    (Poller.init "test").load ["Person0,0,0,0,0", "Person1,0,0,0,0"] =
      .ok ⟨"test", -1, 0,
        [⟨"Person0", 0, 0, 0, 0⟩, ⟨"Person1", 0, 0, 0, 0⟩], false, [0, 1], 0⟩ ∧
    (⟨"test", -1, 0, [⟨"Person0", 0, 0, 0, 0⟩, ⟨"Person1", 0, 0, 0, 0⟩],
        false, [0, 1], 0⟩ : Poller).current_participant = some "Person1" ∧
    (⟨"test", -1, 0, [⟨"Person0", 0, 0, 0, 0⟩, ⟨"Person1", 0, 0, 0, 0⟩],
        false, [0, 1], 0⟩ : Poller).attempted =
      some ⟨"test", -1, 0,
        [⟨"Person0", 0, 0, 0, 0⟩, ⟨"Person1", 1, 0, 1, 0⟩], false, [0, 1], 1⟩ := by
  refine ⟨?_, ?_, ?_⟩ <;> decide

/-- C7, counterexample: `Poller.shuffle` (the code's `beginPass`) does not
reset the cursor to "not started" nor the stopped flag: invoked on a state
with cursor `1` and the stopped flag set (as the documented direct-use API
permits), both survive unchanged. -/
theorem beginPass_does_not_reset_counterexample :
    ¬ ((((⟨"f", 1, 0, [⟨"A", 0, 0, 0, 0⟩, ⟨"B", 0, 0, 0, 0⟩],
          true, [0, 1], 0⟩ : Poller).shuffle id).index = -1) ∧
       (((⟨"f", 1, 0, [⟨"A", 0, 0, 0, 0⟩, ⟨"B", 0, 0, 0, 0⟩],
          true, [0, 1], 0⟩ : Poller).shuffle id).stopped = false)) := by
  decide

/-- C7, amended: `shuffle` itself leaves the cursor and the stopped flag
unchanged.  The session-start path (`__iter__`) resets the cursor to the
not-started value `-1` and the stopped flag to false after shuffling, while
the re-shuffle triggered inside `next()` sets the cursor to `0` (an active
selection) and runs only when the stopped flag is already false, leaving it
false. -/
theorem beginPass_reset_amended (σ : List Nat → List Nat) (p : Poller) :
    (p.shuffle σ).index = p.index ∧ (p.shuffle σ).stopped = p.stopped ∧
    (p.iter σ).index = -1 ∧ (p.iter σ).stopped = false ∧
    (∀ s q, p.nextR σ = .ok (s, q, true) → q.index = 0 ∧ q.stopped = false) := by
  refine ⟨rfl, rfl, rfl, rfl, fun s q h => ?_⟩
  unfold Poller.nextR at h
  by_cases hst : p.stopped = true
  · simp [hst] at h
  · rw [if_neg hst] at h
    simp only at h
    rcases hb : (decide ((p.toPoll.length : Int) ≤ p.index + 1) ||
        decide (p.lastPolled <
          (getPart p (p.toPoll.getD (p.index + 1).toNat 0)).polled)) with _ | _ <;>
      rw [hb] at h
    · rcases hcp : ({ p with index := p.index + 1 } : Poller).current_participant with
        _ | s' <;> rw [if_neg (by simp)] at h <;> rw [hcp] at h
      · exact Except.noConfusion h
      · rcases Except.ok.inj h with h'
        exact absurd (congrArg (fun r => r.2.2) h') (by simp)
    · rcases hcp : ({ p.shuffle σ with index := 0 } : Poller).current_participant with
        _ | s' <;> rw [if_pos rfl] at h <;> rw [hcp] at h
      · exact Except.noConfusion h
      · rcases Except.ok.inj h with h'
        have hq : q = { p.shuffle σ with index := 0 } :=
          (congrArg (fun r => r.2.1) h').symm
        subst hq
        exact ⟨rfl, by simpa using Bool.not_eq_true _ ▸ hst⟩


/-- C2: contract of `next()` (`Poller.__next__`).  If halted it fails with
`StopIteration` (the `SessionHaltedError`).  Otherwise it advances the
cursor by one; if the cursor runs past the end of the working set OR the
participant at the cursor has `polled` strictly greater than the floor, it
re-shuffles and sets the cursor to `0`; it returns the name of the
participant now at the cursor.  In particular, for a loaded non-empty
roster the call never fails when not halted: it returns the name of an
actual roster participant (exhaustion re-shuffles, it does not
terminate). -/
theorem next_contract (σ : List Nat → List Nat) (p : Poller)
    (hσ : IsReorder σ) (hne : p.toPoll ≠ []) (hidx : -1 ≤ p.index)
    (hrange : ∀ i ∈ p.toPoll, i < p.participants.length) :
    (p.stopped = true → p.next σ = .error .stopIteration) ∧
    (p.stopped = false →
      ((p.index + 1 < (p.toPoll.length : Int) ∧
          (getPart p (p.toPoll.getD (p.index + 1).toNat 0)).polled ≤ p.lastPolled) →
        p.next σ = .ok (nameAt p (p.index + 1).toNat, { p with index := p.index + 1 })) ∧
      (((p.toPoll.length : Int) ≤ p.index + 1 ∨
          p.lastPolled < (getPart p (p.toPoll.getD (p.index + 1).toNat 0)).polled) →
        p.next σ = .ok (nameAt { p.shuffle σ with index := 0 } 0,
          { p.shuffle σ with index := 0 })) ∧
      (∃ s q, p.next σ = .ok (s, q) ∧ q.participants = p.participants ∧
        s ∈ p.participants.map (·.name))) := by
  have hne' : (p.shuffle σ).toPoll ≠ [] := by
    have hlen : (p.shuffle σ).toPoll.length = p.toPoll.length :=
      (shuffle_toPoll_perm σ p hσ).length_eq
    intro h
    apply hne
    rw [h] at hlen
    exact List.length_eq_zero.mp hlen.symm
  refine ⟨fun hst => ?_, fun hst => ⟨fun ⟨hlt, hpo⟩ => ?_, fun hcond => ?_, ?_⟩⟩
  · unfold Poller.next
    rw [nextR_stopped σ p hst]
    rfl
  · unfold Poller.next
    rw [nextR_advance σ p hst hidx hlt hpo]
    rfl
  · unfold Poller.next
    rw [nextR_reshuffle σ p hst hcond hne']
    rfl
  · by_cases hc : (p.toPoll.length : Int) ≤ p.index + 1 ∨
        p.lastPolled < (getPart p (p.toPoll.getD (p.index + 1).toNat 0)).polled
    · refine ⟨nameAt { p.shuffle σ with index := 0 } 0,
        { p.shuffle σ with index := 0 }, ?_, rfl, ?_⟩
      · unfold Poller.next
        rw [nextR_reshuffle σ p hst hc hne']
        rfl
      · have h0 : 0 < (p.shuffle σ).toPoll.length := List.length_pos.mpr hne'
        have hm : (p.shuffle σ).toPoll.getD 0 0 ∈ (p.shuffle σ).toPoll :=
          getD_mem_of_lt h0
        have hm' : (p.shuffle σ).toPoll.getD 0 0 ∈ p.toPoll :=
          (shuffle_toPoll_perm σ p hσ).subset hm
        exact List.mem_map_of_mem _ (getPart_mem p (hrange _ hm'))
    · push_neg at hc
      obtain ⟨hlt, hpo⟩ := hc
      refine ⟨nameAt p (p.index + 1).toNat, { p with index := p.index + 1 },
        ?_, rfl, ?_⟩
      · unfold Poller.next
        rw [nextR_advance σ p hst hidx hlt hpo]
        rfl
      · have hjlt : (p.index + 1).toNat < p.toPoll.length := by omega
        have hm : p.toPoll.getD (p.index + 1).toNat 0 ∈ p.toPoll :=
          getD_mem_of_lt hjlt
        exact List.mem_map_of_mem _ (getPart_mem p (hrange _ hm))

/-- Witness for the `next()` contract: two participants, cursor already on
the last one, not stopped; the next call runs past the end, re-shuffles,
and returns the front participant instead of terminating. -/
theorem next_contract_witness :
    (⟨"f", 1, 0, [⟨"A", 0, 0, 0, 0⟩, ⟨"B", 0, 0, 0, 0⟩],
        false, [0, 1], 0⟩ : Poller).next id =
      .ok ("A", ⟨"f", 0, 0, [⟨"A", 0, 0, 0, 0⟩, ⟨"B", 0, 0, 0, 0⟩],
        false, [0, 1], 0⟩) := by
  have h := next_contract id
    (⟨"f", 1, 0, [⟨"A", 0, 0, 0, 0⟩, ⟨"B", 0, 0, 0, 0⟩], false, [0, 1], 0⟩ : Poller)
    (fun l => List.Perm.refl l) (by decide) (by decide) (by decide)
  have h2 := (h.2 rfl).2.1 (Or.inl (by decide))
  exact h2.trans (by decide)



theorem headD_eq_getD_zero {l : List Nat} : l.headD 0 = l.getD 0 0 := by
  cases l <;> rfl

/-- Stability of the working-set sort: for every key value `v`, the
elements with that key appear in the sorted list exactly in the order the
input produced them. -/
theorem insertionSort_stable_filter (ps : List Participant) (l : List Nat) (v : Int) :
    (List.insertionSort (polledLe ps) l).filter
        (fun i => (ps.getD i default).polled == v) =
      l.filter (fun i => (ps.getD i default).polled == v) := by
  set P : Nat → Bool := fun i => (ps.getD i default).polled == v with hP
  set t := List.insertionSort (polledLe ps) l with ht
  have hpair : (l.filter P).Pairwise (polledLe ps) := by
    apply List.pairwise_of_forall_mem_list
    intro a ha b hb
    have ha' := (List.mem_filter.mp ha).2
    have hb' := (List.mem_filter.mp hb).2
    rw [hP] at ha' hb'
    simp only [beq_iff_eq] at ha' hb'
    unfold polledLe
    rw [ha', hb']
  have hsub : (l.filter P).Sublist t :=
    List.sublist_insertionSort hpair (List.filter_sublist l)
  have hsub2 : ((l.filter P).filter P).Sublist (t.filter P) :=
    List.Sublist.filter P hsub
  have hself : (l.filter P).filter P = l.filter P := by
    rw [List.filter_eq_self]
    intro a ha
    exact (List.mem_filter.mp ha).2
  rw [hself] at hsub2
  have hperm : t.Perm l := List.perm_insertionSort _ _
  have hlen : (l.filter P).length = (t.filter P).length :=
    ((hperm.filter P).length_eq).symm
  exact (hsub2.eq_of_length hlen).symm

/-- First pick on the example roster `polled = [3,1,1,2]`: after a pass
begins, `next()` returns P1 or P2, whose `polled` is 1, with floor 1. -/
theorem example_roster_first_pick (σ' σ'' : List Nat → List Nat)
    (hσ' : IsReorder σ') :
    ∃ r : Poller,
      (exampleRoster.iter σ').next σ'' = .ok ((getPart r (r.toPoll.getD 0 0)).name, r) ∧
      ((getPart r (r.toPoll.getD 0 0)).name = "P1" ∨
        (getPart r (r.toPoll.getD 0 0)).name = "P2") ∧
      (getPart r (r.toPoll.getD 0 0)).polled = 1 ∧ r.lastPolled = 1 := by
  have hperm : (exampleRoster.shuffle σ').toPoll.Perm [0, 1, 2, 3] :=
    shuffle_toPoll_perm σ' exampleRoster hσ'
  have hlen4 : (exampleRoster.shuffle σ').toPoll.length = 4 := hperm.length_eq
  have hmem : (exampleRoster.shuffle σ').toPoll.getD 0 0 ∈
      (exampleRoster.shuffle σ').toPoll := getD_mem_of_lt (by omega)
  have h1mem : (1 : Nat) ∈ (exampleRoster.shuffle σ').toPoll :=
    hperm.mem_iff.mpr (by decide)
  have hle1 := shuffle_head_min σ' exampleRoster 1 h1mem
  rw [headD_eq_getD_zero] at hle1
  have hg1 : (getPart exampleRoster 1).polled = 1 := by decide
  rw [hg1] at hle1
  have hcases : (exampleRoster.shuffle σ').toPoll.getD 0 0 = 0 ∨
      (exampleRoster.shuffle σ').toPoll.getD 0 0 = 1 ∨
      (exampleRoster.shuffle σ').toPoll.getD 0 0 = 2 ∨
      (exampleRoster.shuffle σ').toPoll.getD 0 0 = 3 := by
    have := hperm.subset hmem
    simpa using this
  have key : (getPart exampleRoster ((exampleRoster.shuffle σ').toPoll.getD 0 0)).polled = 1 ∧
      ((exampleRoster.shuffle σ').toPoll.getD 0 0 = 1 ∨
        (exampleRoster.shuffle σ').toPoll.getD 0 0 = 2) := by
    rcases hcases with h | h | h | h <;> rw [h] at hle1 ⊢
    · exact absurd hle1 (by decide)
    · exact ⟨by decide, Or.inl rfl⟩
    · exact ⟨by decide, Or.inr rfl⟩
    · exact absurd hle1 (by decide)
  have hlenI : (((exampleRoster.iter σ').toPoll.length : Nat) : Int) = 4 := by
    exact_mod_cast hlen4
  have hnext := nextR_advance σ'' (exampleRoster.iter σ') rfl
    (by exact le_refl (-1))
    (by rw [show (exampleRoster.iter σ').index = -1 from rfl]; omega)
    (by
      show (getPart exampleRoster ((exampleRoster.shuffle σ').toPoll.getD 0 0)).polled ≤
        (exampleRoster.shuffle σ').lastPolled
      rw [shuffle_lastPolled, headD_eq_getD_zero])
  refine ⟨{ exampleRoster.iter σ' with index := 0 }, ?_, ?_, ?_, ?_⟩
  · unfold Poller.next
    rw [hnext]
    rfl
  · show (getPart exampleRoster ((exampleRoster.shuffle σ').toPoll.getD 0 0)).name = "P1" ∨
      (getPart exampleRoster ((exampleRoster.shuffle σ').toPoll.getD 0 0)).name = "P2"
    rcases key.2 with h | h <;> rw [h]
    · exact Or.inl (by decide)
    · exact Or.inr (by decide)
  · exact key.1
  · show (exampleRoster.shuffle σ').lastPolled = 1
    rw [shuffle_lastPolled, headD_eq_getD_zero]
    exact key.1


/-- C3: contract of `beginPass()` (`Poller.shuffle`): the new working set
is a permutation of the old one, sorted in ascending order of `polled`,
stably — for every `polled` value the relative order of the tied elements
is exactly the order the random permutation produced — and the floor
`_last_polled` becomes `workingSet[0].polled`.  Consequently, on the
concrete roster with `polled = [3,1,1,2]` (P0..P3), after `beginPass` the
first participant `next()` returns has `polled = 1`, is P1 or P2, and the
floor is 1. -/
theorem beginPass_contract (σ : List Nat → List Nat) (p : Poller)
    (hσ : IsReorder σ) (hne : p.toPoll ≠ []) :
    (p.shuffle σ).toPoll.Perm p.toPoll ∧
    (p.shuffle σ).toPoll.Pairwise
      (fun i j => (getPart p i).polled ≤ (getPart p j).polled) ∧
    (∀ v : Int, (p.shuffle σ).toPoll.filter (fun i => (getPart p i).polled == v) =
      (σ p.toPoll).filter (fun i => (getPart p i).polled == v)) ∧
    (p.shuffle σ).toPoll ≠ [] ∧
    (p.shuffle σ).lastPolled = (getPart p ((p.shuffle σ).toPoll.getD 0 0)).polled ∧
    (∀ σ' σ'' : List Nat → List Nat, IsReorder σ' →
      ∃ r : Poller,
        (exampleRoster.iter σ').next σ'' =
          .ok ((getPart r (r.toPoll.getD 0 0)).name, r) ∧
        ((getPart r (r.toPoll.getD 0 0)).name = "P1" ∨
          (getPart r (r.toPoll.getD 0 0)).name = "P2") ∧
        (getPart r (r.toPoll.getD 0 0)).polled = 1 ∧ r.lastPolled = 1) := by
  have hne' : (p.shuffle σ).toPoll ≠ [] := by
    have hlen : (p.shuffle σ).toPoll.length = p.toPoll.length :=
      (shuffle_toPoll_perm σ p hσ).length_eq
    intro h
    apply hne
    rw [h] at hlen
    exact List.length_eq_zero.mp hlen.symm
  refine ⟨shuffle_toPoll_perm σ p hσ, ?_, ?_, hne', ?_, ?_⟩
  · have hs := List.sorted_insertionSort (polledLe p.participants) (σ p.toPoll)
    rw [shuffle_toPoll]
    exact hs
  · intro v
    rw [shuffle_toPoll]
    exact insertionSort_stable_filter p.participants (σ p.toPoll) v
  · rw [shuffle_lastPolled, headD_eq_getD_zero]
  · intro σ' σ'' hσ'
    exact example_roster_first_pick σ' σ'' hσ'

/-- Witness for the `beginPass()` contract at a concrete input: the
identity reordering on the example roster, checking the permutation
conjunct and the concrete first pick. -/
theorem beginPass_contract_witness :
    (exampleRoster.shuffle id).toPoll.Perm exampleRoster.toPoll ∧
    (∃ r : Poller,
      (exampleRoster.iter id).next id =
        .ok ((getPart r (r.toPoll.getD 0 0)).name, r) ∧
      ((getPart r (r.toPoll.getD 0 0)).name = "P1" ∨
        (getPart r (r.toPoll.getD 0 0)).name = "P2") ∧
      (getPart r (r.toPoll.getD 0 0)).polled = 1 ∧ r.lastPolled = 1) := by
  have h := beginPass_contract id exampleRoster (fun l => List.Perm.refl l) (by decide)
  exact ⟨h.1, h.2.2.2.2.2 id id (fun l => List.Perm.refl l)⟩


/-- Witness for the amended pass-start reset facts: a concrete `next()`
call that runs past the end of the working set re-shuffles, leaving the
cursor at `0` and the stopped flag false. -/
theorem beginPass_reset_amended_witness :
    (⟨"f", 0, 0, [⟨"A", 0, 0, 0, 0⟩, ⟨"B", 0, 0, 0, 0⟩],
        false, [0, 1], 0⟩ : Poller).index = 0 ∧
    (⟨"f", 0, 0, [⟨"A", 0, 0, 0, 0⟩, ⟨"B", 0, 0, 0, 0⟩],
        false, [0, 1], 0⟩ : Poller).stopped = false := by
  have h := beginPass_reset_amended id
    (⟨"f", 1, 0, [⟨"A", 0, 0, 0, 0⟩, ⟨"B", 0, 0, 0, 0⟩], false, [0, 1], 0⟩ : Poller)
  exact h.2.2.2.2 "A"
    (⟨"f", 0, 0, [⟨"A", 0, 0, 0, 0⟩, ⟨"B", 0, 0, 0, 0⟩], false, [0, 1], 0⟩ : Poller)
    (by decide)

theorem getD_set_ne (l : List Participant) (i m : Nat) (a : Participant)
    (h : i ≠ m) : (l.set i a).getD m default = l.getD m default := by
  rw [List.getD_eq_getElem?_getD, List.getElem?_set_ne h,
    ← List.getD_eq_getElem?_getD]

theorem getD_set_self (l : List Participant) (i : Nat) (a : Participant)
    (h : i < l.length) : (l.set i a).getD i default = a := by
  rw [List.getD_eq_getElem?_getD, List.getElem?_set_self h]
  rfl

theorem bump_name (k : Kind) (x : Participant) : (bump k x).name = x.name := by
  cases k <;> rfl

theorem bump_polled (k : Kind) (x : Participant) :
    (bump k x).polled = x.polled + 1 := by
  cases k <;> rfl

theorem bump_correct (k : Kind) (x : Participant) :
    (bump k x).correct = x.correct + (if k = Kind.correct then 1 else 0) := by
  cases k <;> simp [bump]

theorem bump_attempted (k : Kind) (x : Participant) :
    (bump k x).attempted = x.attempted + (if k = Kind.attempted then 1 else 0) := by
  cases k <;> simp [bump]

theorem bump_excused (k : Kind) (x : Participant) :
    (bump k x).excused = x.excused + (if k = Kind.excused then 1 else 0) := by
  cases k <;> simp [bump]

/-- C6: outcome round trip and frame.  With the cursor on a valid selection
(`pyIdx` resolves it to position `j`, whose working-set entry is roster
index `idx`), `recordOutcome(kind)` succeeds and increments exactly the
selected participant's `polled` plus the counter matching the kind
(`missing` increments only `polled`), increments the session total, and
changes nothing else: not the other participants, not the selected
participant's other counters, and none of the remaining engine state. -/
theorem recordOutcome_frame (p : Poller) (k : Kind) (j idx : Nat)
    (hj : pyIdx p.toPoll.length p.index = some j)
    (hidx : p.toPoll.getD j 0 = idx)
    (hlt : idx < p.participants.length) :
    ∃ q, p.recordOutcome k = some q ∧
      p.current_participant = some (getPart p idx).name ∧
      q.participants = p.participants.set idx (bump k (getPart p idx)) ∧
      q.participants.length = p.participants.length ∧
      (∀ m, m ≠ idx → q.participants.getD m default = p.participants.getD m default) ∧
      q.participants.getD idx default = bump k (getPart p idx) ∧
      (q.participants.getD idx default).name = (getPart p idx).name ∧
      (q.participants.getD idx default).polled = (getPart p idx).polled + 1 ∧
      (q.participants.getD idx default).correct =
        (getPart p idx).correct + (if k = Kind.correct then 1 else 0) ∧
      (q.participants.getD idx default).attempted =
        (getPart p idx).attempted + (if k = Kind.attempted then 1 else 0) ∧
      (q.participants.getD idx default).excused =
        (getPart p idx).excused + (if k = Kind.excused then 1 else 0) ∧
      q.totalPolled = p.totalPolled + 1 ∧
      q.toPoll = p.toPoll ∧ q.index = p.index ∧ q.lastPolled = p.lastPolled ∧
      q.stopped = p.stopped := by
  have hro : p.recordOutcome k =
      some { p with
        participants := p.participants.set idx (bump k (getPart p idx)),
        totalPolled := p.totalPolled + 1 } := by
    simp only [Poller.recordOutcome, hj, Option.map_some']
    rw [hidx]
  have hcur : p.current_participant = some (getPart p idx).name := by
    simp only [Poller.current_participant, hj, Option.map_some']
    rw [hidx]
  refine ⟨_, hro, hcur, rfl, List.length_set .., fun m hm => ?_, ?_, ?_, ?_, ?_, ?_, ?_,
    rfl, rfl, rfl, rfl, rfl⟩
  · exact getD_set_ne _ _ _ _ (fun he => hm he.symm)
  · exact getD_set_self _ _ _ hlt
  · rw [getD_set_self _ _ _ hlt, bump_name]
  · rw [getD_set_self _ _ _ hlt, bump_polled]
  · rw [getD_set_self _ _ _ hlt, bump_correct]
  · rw [getD_set_self _ _ _ hlt, bump_attempted]
  · rw [getD_set_self _ _ _ hlt, bump_excused]

/-- Witness for the outcome frame: two participants, cursor on the first;
`recordOutcome(Correct)` bumps A's `polled`/`correct` only and leaves B
untouched. -/
theorem recordOutcome_frame_witness :
    ∃ q, (⟨"f", 0, 0, [⟨"A", 0, 0, 0, 0⟩, ⟨"B", 0, 0, 0, 0⟩],
        false, [0, 1], 0⟩ : Poller).recordOutcome .correct = some q ∧
      q.participants.getD 0 default = ⟨"A", 1, 1, 0, 0⟩ ∧
      q.participants.getD 1 default = ⟨"B", 0, 0, 0, 0⟩ ∧
      q.totalPolled = 1 := by
  obtain ⟨q, hq, hc⟩ := recordOutcome_frame
    (⟨"f", 0, 0, [⟨"A", 0, 0, 0, 0⟩, ⟨"B", 0, 0, 0, 0⟩], false, [0, 1], 0⟩ : Poller)
    .correct 0 0 (by decide) (by decide) (by decide)
  refine ⟨q, hq, ?_, ?_, ?_⟩
  · rw [hc.2.1]
    decide
  · rw [hc.2.1]
    decide
  · exact hc.2.2.2.2.2.2.2.2.2.2.1


theorem parseLines_ok_of (f : String) (lines : List String)
    (h : ∀ l ∈ lines, l ≠ "" → ∃ part, parseLine l = some part) :
    parseLines f lines =
      .ok (lines.filterMap fun l => if l = "" then none else parseLine l) := by
  induction lines with
  | nil => rfl
  | cons line rest ih =>
    have ih' := ih (fun l hl hne => h l (List.mem_cons_of_mem _ hl) hne)
    by_cases he : line = ""
    · unfold parseLines
      rw [if_pos he, ih', List.filterMap_cons, if_pos he]
    · obtain ⟨part, hpart⟩ := h line (List.mem_cons_self _ _) he
      unfold parseLines
      rw [if_neg he, hpart, ih', List.filterMap_cons, if_neg he, hpart]
      rfl

theorem parseLines_ok_elim (f : String) (lines : List String)
    (parts : List Participant) (h : parseLines f lines = .ok parts) :
    ∀ l ∈ lines, l ≠ "" → ∃ part, parseLine l = some part := by
  induction lines generalizing parts with
  | nil => intro l hl; cases hl
  | cons line rest ih =>
    intro l hl hne
    unfold parseLines at h
    by_cases he : line = ""
    · rw [if_pos he] at h
      rcases List.mem_cons.mp hl with rfl | hl'
      · exact absurd he hne
      · exact ih parts h l hl' hne
    · rw [if_neg he] at h
      rcases hp : parseLine line with _ | part
      · rw [hp] at h
        exact Except.noConfusion h
      · rw [hp] at h
        rcases List.mem_cons.mp hl with rfl | hl'
        · exact ⟨part, hp⟩
        · rcases hrest : parseLines f rest with e | ps
          · rw [hrest] at h
            exact Except.noConfusion h
          · exact ih ps hrest l hl' hne

theorem parseLines_error_elim (f : String) (lines : List String)
    (e : LoadErr) (h : parseLines f lines = .error e) :
    ∃ l ∈ lines, l ≠ "" ∧ parseLine l = none ∧ e = .malformed f l := by
  induction lines with
  | nil => exact Except.noConfusion h
  | cons line rest ih =>
    unfold parseLines at h
    by_cases he : line = ""
    · rw [if_pos he] at h
      obtain ⟨l, hl, hx⟩ := ih h
      exact ⟨l, List.mem_cons_of_mem _ hl, hx⟩
    · rw [if_neg he] at h
      rcases hp : parseLine line with _ | part
      · rw [hp] at h
        refine ⟨line, List.mem_cons_self _ _, he, hp, ?_⟩
        exact (Except.error.inj h).symm
      · rw [hp] at h
        rcases hrest : parseLines f rest with e' | ps
        · rw [hrest] at h
          obtain ⟨l, hl, hx⟩ := ih (by rw [hrest, Except.error.inj h])
          exact ⟨l, List.mem_cons_of_mem _ hl, hx⟩
        · rw [hrest] at h
          exact Except.noConfusion h

theorem load_init_eq (fname : String) (lines : List String) :
    (Poller.init fname).load lines =
      match parseLines fname lines with
      | .error e => .error e
      | .ok parsed =>
        if parsed.length = 0 then .error (.noParticipants fname)
        else .ok { Poller.init fname with
                   participants := parsed,
                   toPoll := List.range parsed.length } := rfl

theorem load_of_parseLines_error (fname : String) (lines : List String)
    (e : LoadErr) (hp : parseLines fname lines = .error e) :
    (Poller.init fname).load lines = .error e := by
  rw [load_init_eq, hp]

theorem load_of_parseLines_ok_pos (fname : String) (lines : List String)
    (parsed : List Participant) (hp : parseLines fname lines = .ok parsed)
    (hz : parsed.length = 0) :
    (Poller.init fname).load lines = .error (.noParticipants fname) := by
  rw [load_init_eq, hp]
  show (if parsed.length = 0 then
      (Except.error (LoadErr.noParticipants fname) : Except LoadErr Poller)
    else .ok { Poller.init fname with
               participants := parsed,
               toPoll := List.range parsed.length }) = _
  rw [if_pos hz]

theorem load_of_parseLines_ok_neg (fname : String) (lines : List String)
    (parsed : List Participant) (hp : parseLines fname lines = .ok parsed)
    (hz : parsed.length ≠ 0) :
    (Poller.init fname).load lines =
      .ok { Poller.init fname with
            participants := parsed,
            toPoll := List.range parsed.length } := by
  rw [load_init_eq, hp]
  show (if parsed.length = 0 then
      (Except.error (LoadErr.noParticipants fname) : Except LoadErr Poller)
    else .ok { Poller.init fname with
               participants := parsed,
               toPoll := List.range parsed.length }) = _
  rw [if_neg hz]

/-- C9: failure contract of `load` (`Poller.open`).  A malformed-line error
(carrying the filename and the offending line) is raised iff some
non-empty input line fails to parse, and any such error names an actual
offending line.  When every non-empty line parses, the empty-roster error
is raised iff zero records were parsed, and otherwise loading succeeds
with exactly one participant per non-empty line, in file order. -/
theorem load_contract (fname : String) (lines : List String) :
    ((∃ l, (Poller.init fname).load lines = .error (.malformed fname l)) ↔
      ∃ l ∈ lines, l ≠ "" ∧ parseLine l = none) ∧
    (∀ l, (Poller.init fname).load lines = .error (.malformed fname l) →
      l ∈ lines ∧ l ≠ "" ∧ parseLine l = none) ∧
    ((¬ ∃ l ∈ lines, l ≠ "" ∧ parseLine l = none) →
      (((Poller.init fname).load lines = .error (.noParticipants fname)) ↔
        (lines.filterMap fun l => if l = "" then none else parseLine l) = []) ∧
      ((lines.filterMap fun l => if l = "" then none else parseLine l) ≠ [] →
        (Poller.init fname).load lines =
          .ok { Poller.init fname with
            participants := lines.filterMap fun l => if l = "" then none else parseLine l,
            toPoll := List.range
              (lines.filterMap fun l => if l = "" then none else parseLine l).length })) := by
  have hmal : ∀ e, parseLines fname lines = .error e →
      ∃ l ∈ lines, l ≠ "" ∧ parseLine l = none ∧ e = .malformed fname l :=
    parseLines_error_elim fname lines
  refine ⟨⟨?_, ?_⟩, ?_, ?_⟩
  · rintro ⟨l, hl⟩
    rcases hp : parseLines fname lines with e | parsed
    · obtain ⟨l', hl', hne', hnone', _⟩ := hmal e hp
      exact ⟨l', hl', hne', hnone'⟩
    · by_cases hz : parsed.length = 0
      · have := (load_of_parseLines_ok_pos fname lines parsed hp hz).symm.trans hl
        exact absurd (Except.error.inj this) (by intro hc; cases hc)
      · have := (load_of_parseLines_ok_neg fname lines parsed hp hz).symm.trans hl
        exact Except.noConfusion this
  · rintro ⟨l, hl, hne, hnone⟩
    rcases hp : parseLines fname lines with e | parsed
    · obtain ⟨l', _, _, _, he⟩ := hmal e hp
      exact ⟨l', by rw [load_of_parseLines_error fname lines e hp, he]⟩
    · obtain ⟨part, hpart⟩ := parseLines_ok_elim fname lines parsed hp l hl hne
      rw [hpart] at hnone
      exact Option.noConfusion hnone
  · intro l hl
    rcases hp : parseLines fname lines with e | parsed
    · obtain ⟨l', hl', hne', hnone', he⟩ := hmal e hp
      have := (load_of_parseLines_error fname lines e hp).symm.trans hl
      rw [he] at this
      obtain rfl := (LoadErr.malformed.inj (Except.error.inj this)).2.symm
      exact ⟨hl', hne', hnone'⟩
    · by_cases hz : parsed.length = 0
      · have := (load_of_parseLines_ok_pos fname lines parsed hp hz).symm.trans hl
        exact absurd (Except.error.inj this) (by intro hc; cases hc)
      · have := (load_of_parseLines_ok_neg fname lines parsed hp hz).symm.trans hl
        exact Except.noConfusion this
  · intro hno
    have hall : ∀ l ∈ lines, l ≠ "" → ∃ part, parseLine l = some part := by
      intro l hl hne
      rcases hp : parseLine l with _ | part
      · exact absurd ⟨l, hl, hne, hp⟩ hno
      · exact ⟨part, rfl⟩
    have hok := parseLines_ok_of fname lines hall
    constructor
    · constructor
      · intro hl
        by_cases hz : (lines.filterMap fun l => if l = "" then none else parseLine l).length = 0
        · exact List.length_eq_zero.mp hz
        · have := (load_of_parseLines_ok_neg fname lines _ hok hz).symm.trans hl
          exact Except.noConfusion this
      · intro hz
        exact load_of_parseLines_ok_pos fname lines _ hok (by rw [hz]; rfl)
    · intro hne
      exact load_of_parseLines_ok_neg fname lines _ hok
        (fun h => hne (List.length_eq_zero.mp h))

/-- Witness for the load contract: one well-formed line plus one empty
line loads a single participant. -/
theorem load_contract_witness :
    (Poller.init "f").load ["A,1,2,3,4", ""] =
      .ok { Poller.init "f" with
        participants := [⟨"A", 1, 2, 3, 4⟩], toPoll := [0] } := by
  have h := load_contract "f" ["A,1,2,3,4", ""]
  have h3 := (h.2.2 (by decide)).2 (by decide)
  exact h3.trans (by decide)


/-- Exhaustive shape of a successful `__next__`: either the cursor simply
advanced (no re-shuffle) or the state was re-shuffled with cursor `0`. -/
theorem nextR_ok_cases (σ : List Nat → List Nat) (p : Poller)
    (s : String) (q : Poller) (b : Bool) (h : p.nextR σ = .ok (s, q, b)) :
    (q = { p with index := p.index + 1 } ∧ b = false) ∨
    (q = { p.shuffle σ with index := 0 } ∧ b = true) := by
  unfold Poller.nextR at h
  by_cases hst : p.stopped = true
  · rw [if_pos hst] at h
    exact Except.noConfusion h
  · rw [if_neg hst] at h
    simp only at h
    rcases hb : (decide ((p.toPoll.length : Int) ≤ p.index + 1) ||
        decide (p.lastPolled <
          (getPart p (p.toPoll.getD (p.index + 1).toNat 0)).polled)) with _ | _ <;>
      rw [hb] at h
    · rcases hcp : ({ p with index := p.index + 1 } : Poller).current_participant with
        _ | s' <;> rw [if_neg (by simp), hcp] at h
      · exact Except.noConfusion h
      · have h' := Except.ok.inj h
        exact Or.inl ⟨(congrArg (fun r => r.2.1) h').symm,
          (congrArg (fun r => r.2.2) h').symm⟩
    · rcases hcp : ({ p.shuffle σ with index := 0 } : Poller).current_participant with
        _ | s' <;> rw [if_pos rfl, hcp] at h
      · exact Except.noConfusion h
      · have h' := Except.ok.inj h
        exact Or.inr ⟨(congrArg (fun r => r.2.1) h').symm,
          (congrArg (fun r => r.2.2) h').symm⟩

/-- Shape of a successful outcome call: the cursor resolved to a position
`j` and exactly that working-set entry's participant was bumped. -/
theorem recordOutcome_ok_cases (k : Kind) (p q : Poller)
    (h : p.recordOutcome k = some q) :
    ∃ j, pyIdx p.toPoll.length p.index = some j ∧
      q = { p with
        participants := p.participants.set (p.toPoll.getD j 0)
          (bump k (getPart p (p.toPoll.getD j 0))),
        totalPolled := p.totalPolled + 1 } := by
  unfold Poller.recordOutcome at h
  rcases hj : pyIdx p.toPoll.length p.index with _ | j
  · rw [hj] at h
    exact Option.noConfusion h
  · rw [hj, Option.map_some'] at h
    exact ⟨j, rfl, (Option.some.inj h).symm⟩

theorem map_name_set_bump : ∀ (l : List Participant) (idx : Nat) (k : Kind),
    (l.set idx (bump k (l.getD idx default))).map (fun x => x.name) =
      l.map (fun x => x.name)
  | [], _, _ => rfl
  | x :: xs, 0, k => by
    simp only [List.getD_cons_zero, List.set_cons_zero, List.map_cons, bump_name]
  | x :: xs, n + 1, k => by
    simp only [List.getD_cons_succ, List.set_cons_succ, List.map_cons]
    rw [map_name_set_bump xs n k]

/-- One session call keeps the roster's name sequence and keeps the
working set a permutation of the roster positions. -/
theorem op_apply_inv (op : Op) (p q : Poller) (hop : op.Reorders)
    (h : op.apply p = .ok q) :
    q.participants.map (fun x => x.name) = p.participants.map (fun x => x.name) ∧
    (p.toPoll.Perm (List.range p.participants.length) →
      q.toPoll.Perm (List.range q.participants.length)) := by
  cases op with
  | next σ =>
    replace h : Except.map (fun x => x.2) (p.next σ) = .ok q := h
    rcases hn : p.nextR σ with e | ⟨s, q', b⟩
    · rw [show p.next σ = .error e by unfold Poller.next; rw [hn]; rfl] at h
      exact Except.noConfusion h
    · rw [show p.next σ = .ok (s, q') by unfold Poller.next; rw [hn]; rfl] at h
      obtain rfl : q' = q := Except.ok.inj h
      rcases nextR_ok_cases σ p s q' b hn with ⟨rfl, -⟩ | ⟨rfl, -⟩
      · exact ⟨rfl, fun hperm => hperm⟩
      · exact ⟨rfl, fun hperm =>
          ((shuffle_toPoll_perm σ p hop).trans hperm : _)⟩
  | outcome k =>
    replace h : (match p.recordOutcome k with
      | some r => (Except.ok r : Except NextErr Poller)
      | none => Except.error NextErr.indexError) = .ok q := h
    rcases hr : p.recordOutcome k with _ | q'
    · rw [hr] at h
      exact Except.noConfusion h
    · rw [hr] at h
      obtain rfl : q' = q := Except.ok.inj h
      obtain ⟨j, -, rfl⟩ := recordOutcome_ok_cases k p q' hr
      refine ⟨map_name_set_bump _ _ _, fun hperm => ?_⟩
      have hlen : (p.participants.set (p.toPoll.getD j 0)
          (bump k (getPart p (p.toPoll.getD j 0)))).length =
          p.participants.length := List.length_set ..
      simpa [hlen] using hperm
  | stop =>
    obtain rfl : p.stop = q := Except.ok.inj h
    exact ⟨rfl, fun hperm => hperm⟩
  | iter σ =>
    obtain rfl : p.iter σ = q := Except.ok.inj h
    exact ⟨rfl, fun hperm => (shuffle_toPoll_perm σ p hop).trans hperm⟩
  | shuffle σ =>
    obtain rfl : p.shuffle σ = q := Except.ok.inj h
    exact ⟨rfl, fun hperm => (shuffle_toPoll_perm σ p hop).trans hperm⟩

theorem runOps_inv (ops : List Op) (p q : Poller)
    (hops : ∀ op ∈ ops, op.Reorders) (hrun : runOps ops p = .ok q) :
    q.participants.map (fun x => x.name) = p.participants.map (fun x => x.name) ∧
    (p.toPoll.Perm (List.range p.participants.length) →
      q.toPoll.Perm (List.range q.participants.length)) := by
  induction ops generalizing p with
  | nil =>
    obtain rfl : p = q := Except.ok.inj hrun
    exact ⟨rfl, fun hperm => hperm⟩
  | cons op rest ih =>
    unfold runOps at hrun
    rcases ha : op.apply p with e | r
    · rw [ha] at hrun
      exact Except.noConfusion hrun
    · rw [ha] at hrun
      have h1 := op_apply_inv op p r (hops op (List.mem_cons_self _ _)) ha
      have h2 := ih r (fun o ho => hops o (List.mem_cons_of_mem _ ho)) hrun
      exact ⟨h2.1.trans h1.1, fun hperm => h2.2 (h1.2 hperm)⟩

theorem load_ok_shape (fname : String) (lines : List String) (p₀ : Poller)
    (h : (Poller.init fname).load lines = .ok p₀) :
    p₀.toPoll = List.range p₀.participants.length := by
  rcases hp : parseLines fname lines with e | parsed
  · have := (load_of_parseLines_error fname lines e hp).symm.trans h
    exact Except.noConfusion this
  · by_cases hz : parsed.length = 0
    · have := (load_of_parseLines_ok_pos fname lines parsed hp hz).symm.trans h
      exact Except.noConfusion this
    · have := (load_of_parseLines_ok_neg fname lines parsed hp hz).symm.trans h
      obtain rfl := Except.ok.inj this
      rfl

/-- C8: aliasing and order invariant.  The working set holds references
into the canonical roster (aliasing is the index representation itself, so
counter updates made through the working set are updates of the roster);
after `load`, any sequence of session calls keeps the working set a
permutation of the roster positions, keeps the roster's name sequence in
its original loaded order, and `save` emits one serialized row per roster
participant in exactly that order. -/
theorem roster_aliasing_invariant (fname : String) (lines : List String)
    (p₀ : Poller) (hload : (Poller.init fname).load lines = .ok p₀)
    (ops : List Op) (hops : ∀ op ∈ ops, op.Reorders)
    (q : Poller) (hrun : runOps ops p₀ = .ok q) :
    q.participants.map (fun x => x.name) = p₀.participants.map (fun x => x.name) ∧
    q.toPoll.Perm (List.range q.participants.length) ∧
    q.save = q.participants.map (fun x => x.toRow ++ "\n") := by
  have h0 : p₀.toPoll.Perm (List.range p₀.participants.length) := by
    rw [load_ok_shape fname lines p₀ hload]
  have h := runOps_inv ops p₀ q hops hrun
  exact ⟨h.1, h.2 h0, rfl⟩

/-- Witness for the aliasing/order invariant: load two participants, run a
pass start, one selection and one outcome; the roster names stay in loaded
order and the working set is still a permutation of the positions. -/
theorem roster_aliasing_invariant_witness :
    ∃ q, runOps [Op.iter id, Op.next id, Op.outcome .correct]
        (⟨"f", -1, 0, [⟨"A", 0, 0, 0, 0⟩, ⟨"B", 0, 0, 0, 0⟩],
          false, [0, 1], 0⟩ : Poller) = .ok q ∧
      q.participants.map (fun x => x.name) = ["A", "B"] ∧
      q.toPoll.Perm (List.range q.participants.length) := by
  have hops : ∀ op ∈ [Op.iter id, Op.next id, Op.outcome Kind.correct],
      op.Reorders := by
    intro op hop
    rcases List.mem_cons.mp hop with rfl | hop
    · exact fun l => List.Perm.refl l
    rcases List.mem_cons.mp hop with rfl | hop
    · exact fun l => List.Perm.refl l
    rcases List.mem_cons.mp hop with rfl | hop
    · exact trivial
    · cases hop
  have h := roster_aliasing_invariant "f" ["A,0,0,0,0", "B,0,0,0,0"]
    (⟨"f", -1, 0, [⟨"A", 0, 0, 0, 0⟩, ⟨"B", 0, 0, 0, 0⟩], false, [0, 1], 0⟩ : Poller)
    (by decide) [Op.iter id, Op.next id, Op.outcome .correct] hops
    (⟨"f", 0, 0, [⟨"A", 1, 1, 0, 0⟩, ⟨"B", 0, 0, 0, 0⟩], false, [0, 1], 1⟩ : Poller)
    (by decide)
  exact ⟨_, by decide, h.1.trans (by decide), h.2.1⟩


/-- A successful `__next__` returned exactly the current participant of
its post-state. -/
theorem nextR_ok_name (σ : List Nat → List Nat) (p : Poller)
    (s : String) (q : Poller) (b : Bool) (h : p.nextR σ = .ok (s, q, b)) :
    q.current_participant = some s := by
  unfold Poller.nextR at h
  by_cases hst : p.stopped = true
  · rw [if_pos hst] at h
    exact Except.noConfusion h
  · rw [if_neg hst] at h
    simp only at h
    rcases hb : (decide ((p.toPoll.length : Int) ≤ p.index + 1) ||
        decide (p.lastPolled <
          (getPart p (p.toPoll.getD (p.index + 1).toNat 0)).polled)) with _ | _ <;>
      rw [hb] at h
    · rcases hcp : ({ p with index := p.index + 1 } : Poller).current_participant with
        _ | s' <;> rw [if_neg (by simp), hcp] at h
      · exact Except.noConfusion h
      · have h' := Except.ok.inj h
        have hq : ({ p with index := p.index + 1 } : Poller) = q :=
          congrArg (fun r : String × Poller × Bool => r.2.1) h'
        have hs : s' = s := congrArg (fun r : String × Poller × Bool => r.1) h'
        rw [← hq, hcp, hs]
    · rcases hcp : ({ p.shuffle σ with index := 0 } : Poller).current_participant with
        _ | s' <;> rw [if_pos rfl, hcp] at h
      · exact Except.noConfusion h
      · have h' := Except.ok.inj h
        have hq : ({ p.shuffle σ with index := 0 } : Poller) = q :=
          congrArg (fun r : String × Poller × Bool => r.2.1) h'
        have hs : s' = s := congrArg (fun r : String × Poller × Bool => r.1) h'
        rw [← hq, hcp, hs]

/-- A successful `current_participant` with a non-negative cursor means the
cursor is inside the working set and the name is the one at the cursor. -/
theorem current_ok_elim (p : Poller) (s : String)
    (h : p.current_participant = some s) (h0 : 0 ≤ p.index) :
    p.index < (p.toPoll.length : Int) ∧ s = nameAt p p.index.toNat := by
  unfold Poller.current_participant pyIdx at h
  rw [if_pos h0] at h
  by_cases hlt : p.index < (p.toPoll.length : Int)
  · rw [if_pos hlt, Option.map_some'] at h
    exact ⟨hlt, (Option.some.inj h).symm⟩
  · rw [if_neg hlt] at h
    exact Option.noConfusion h

theorem name_getD_map : ∀ (l : List Participant) (idx : Nat),
    (l.getD idx default).name = (l.map (fun x => x.name)).getD idx ""
  | [], _ => rfl
  | _ :: _, 0 => rfl
  | _ :: xs, n + 1 => name_getD_map xs n

theorem nameAt_congr (p q : Poller) (ht : q.toPoll = p.toPoll)
    (hn : q.participants.map (fun x => x.name) =
      p.participants.map (fun x => x.name)) (j : Nat) :
    nameAt q j = nameAt p j := by
  unfold nameAt getPart
  rw [ht, name_getD_map, name_getD_map, hn]

/-- Positions of the working set carry pairwise distinct names when the
roster's names are distinct. -/
theorem nameAt_inj (p : Poller)
    (hperm : p.toPoll.Perm (List.range p.participants.length))
    (hnames : (p.participants.map (fun x => x.name)).Nodup) :
    ∀ j₁, j₁ < p.toPoll.length → ∀ j₂, j₂ < p.toPoll.length →
      nameAt p j₁ = nameAt p j₂ → j₁ = j₂ := by
  intro j₁ h₁ j₂ h₂ heq
  by_contra hne
  have hnodup : p.toPoll.Nodup := hperm.nodup_iff.mpr (List.nodup_range _)
  have he₁ : p.toPoll.getD j₁ 0 = p.toPoll[j₁] := by
    rw [List.getD_eq_getElem?_getD, List.getElem?_eq_getElem h₁]
    rfl
  have he₂ : p.toPoll.getD j₂ 0 = p.toPoll[j₂] := by
    rw [List.getD_eq_getElem?_getD, List.getElem?_eq_getElem h₂]
    rfl
  have hene : p.toPoll[j₁] ≠ p.toPoll[j₂] := by
    intro hc
    exact hne ((hnodup.getElem_inj_iff).mp hc)
  have hm₁ : p.toPoll[j₁] < p.participants.length := by
    have := hperm.subset (List.getElem_mem h₁)
    exact List.mem_range.mp this
  have hm₂ : p.toPoll[j₂] < p.participants.length := by
    have := hperm.subset (List.getElem_mem h₂)
    exact List.mem_range.mp this
  apply hene
  have hlm : p.participants.length = (p.participants.map (fun x => x.name)).length :=
    (List.length_map _ _).symm
  unfold nameAt getPart at heq
  rw [he₁, he₂, name_getD_map, name_getD_map] at heq
  have hg₁ : (p.participants.map (fun x => x.name)).getD p.toPoll[j₁] "" =
      (p.participants.map (fun x => x.name)).get ⟨p.toPoll[j₁], hlm ▸ hm₁⟩ := by
    rw [List.getD_eq_getElem?_getD, List.getElem?_eq_getElem (hlm ▸ hm₁)]
    rfl
  have hg₂ : (p.participants.map (fun x => x.name)).getD p.toPoll[j₂] "" =
      (p.participants.map (fun x => x.name)).get ⟨p.toPoll[j₂], hlm ▸ hm₂⟩ := by
    rw [List.getD_eq_getElem?_getD, List.getElem?_eq_getElem (hlm ▸ hm₂)]
    rfl
  rw [hg₁, hg₂] at heq
  exact congrArg Fin.val ((hnames.get_inj_iff).mp heq)

/-- Shape of one successful polling step: `next()` ran (with some
intermediate state), and the optional outcome report only changed counters
(names, working set and cursor survive). -/
theorem stepPoll_ok_cases (σ : List Nat → List Nat) (k : Option Kind)
    (p : Poller) (r : String × Bool) (q : Poller)
    (h : stepPoll σ k p = .ok (r, q)) :
    ∃ q₁ : Poller, p.nextR σ = .ok (r.1, q₁, r.2) ∧
      q.toPoll = q₁.toPoll ∧ q.index = q₁.index ∧
      q.participants.map (fun x => x.name) =
        q₁.participants.map (fun x => x.name) := by
  unfold stepPoll at h
  rcases hn : p.nextR σ with e | ⟨s, q₁, b⟩
  · rw [hn] at h
    exact Except.noConfusion h
  · rw [hn] at h
    rcases k with _ | kind
    · replace h : (Except.ok ((s, b), q₁) :
          Except NextErr ((String × Bool) × Poller)) = .ok (r, q) := h
      obtain h' := Except.ok.inj h
      have hs : r.1 = s := (congrArg (fun z => z.1.1) h').symm
      have hb : r.2 = b := (congrArg (fun z => z.1.2) h').symm
      have hq : q = q₁ := (congrArg (fun z => z.2) h').symm
      rw [hs, hb, hq]
      exact ⟨q₁, rfl, rfl, rfl, rfl⟩
    · replace h : (match q₁.recordOutcome kind with
          | some r2 => (Except.ok ((s, b), r2) :
              Except NextErr ((String × Bool) × Poller))
          | none => Except.error NextErr.indexError) = .ok (r, q) := h
      rcases hr : q₁.recordOutcome kind with _ | q₂
      · rw [hr] at h
        exact Except.noConfusion h
      · rw [hr] at h
        obtain h' := Except.ok.inj h
        have hs : r.1 = s := (congrArg (fun z => z.1.1) h').symm
        have hb : r.2 = b := (congrArg (fun z => z.1.2) h').symm
        have hq : q = q₂ := (congrArg (fun z => z.2) h').symm
        obtain ⟨j, -, rfl⟩ := recordOutcome_ok_cases kind q₁ q₂ hr
        rw [hs, hb, hq]
        exact ⟨q₁, rfl, rfl, rfl, map_name_set_bump _ _ _⟩


/-- A run of polling steps in which no `next()` call re-shuffled walks the
working set in place: the cursor advances one position per step, every
visited position is inside the working set, and the returned names are the
names at consecutive positions; the working set and the roster's name
sequence survive unchanged. -/
theorem runPolls_no_reshuffle :
    ∀ (steps : List ((List Nat → List Nat) × Option Kind)) (p : Poller)
      (out : List (String × Bool)) (q : Poller),
      runPolls steps p = .ok (out, q) →
      (∀ r ∈ out, r.2 = false) →
      0 ≤ p.index →
      out.map (fun r => r.1) =
        (List.range steps.length).map (fun t => nameAt p (p.index.toNat + 1 + t)) ∧
      (∀ t, t < steps.length → p.index.toNat + 1 + t < p.toPoll.length) ∧
      q.toPoll = p.toPoll ∧
      q.participants.map (fun x => x.name) = p.participants.map (fun x => x.name) ∧
      q.index = p.index + (steps.length : Int)
  | [], p, out, q, hrun, _, _ => by
    replace hrun : (Except.ok (([], p)) :
        Except NextErr (List (String × Bool) × Poller)) = .ok (out, q) := hrun
    obtain h' := Except.ok.inj hrun
    have hout : out = [] := (congrArg Prod.fst h').symm
    have hq : q = p := (congrArg Prod.snd h').symm
    subst hout
    subst hq
    refine ⟨rfl, fun t ht => absurd ht (Nat.not_lt_zero t), rfl, rfl, by simp⟩
  | s :: rest, p, out, q, hrun, hflags, h0 => by
    unfold runPolls at hrun
    rcases hs : stepPoll s.1 s.2 p with e | ⟨r, q1⟩
    · rw [hs] at hrun
      exact Except.noConfusion hrun
    · rw [hs] at hrun
      replace hrun : (match runPolls rest q1 with
        | .error e => (Except.error e :
            Except NextErr (List (String × Bool) × Poller))
        | .ok (rs, q2) => .ok (r :: rs, q2)) = .ok (out, q) := hrun
      rcases hrest : runPolls rest q1 with e | ⟨rs, q2⟩
      · rw [hrest] at hrun
        exact Except.noConfusion hrun
      · rw [hrest] at hrun
        obtain h' := Except.ok.inj hrun
        have hout : out = r :: rs := (congrArg Prod.fst h').symm
        have hq : q = q2 := (congrArg Prod.snd h').symm
        subst hout
        subst hq
        have hbhead : r.2 = false := hflags r (List.mem_cons_self _ _)
        have hftail : ∀ x ∈ rs, x.2 = false :=
          fun x hx => hflags x (List.mem_cons_of_mem _ hx)
        obtain ⟨q₁', hnx, htp, hix, hnm⟩ := stepPoll_ok_cases s.1 s.2 p r q1 hs
        rw [hbhead] at hnx
        rcases nextR_ok_cases s.1 p r.1 q₁' false hnx with ⟨hq', -⟩ | ⟨-, hcontra⟩
        · subst hq'
          have hname := nextR_ok_name s.1 p r.1 _ false hnx
          have h0' : (0 : Int) ≤ ({ p with index := p.index + 1 } : Poller).index := by
            show (0 : Int) ≤ p.index + 1
            omega
          obtain ⟨hlt, hr1⟩ := current_ok_elim _ r.1 hname h0'
          replace hlt : p.index + 1 < (p.toPoll.length : Int) := hlt
          have hr1' : r.1 = nameAt p (p.index.toNat + 1) := by
            rw [hr1]
            show nameAt p (p.index + 1).toNat = _
            rw [show (p.index + 1).toNat = p.index.toNat + 1 from by omega]
          have hix' : q1.index = p.index + 1 := hix
          have htp' : q1.toPoll = p.toPoll := htp
          have hnm' : q1.participants.map (fun x => x.name) =
              p.participants.map (fun x => x.name) := hnm
          have h01 : 0 ≤ q1.index := by omega
          obtain ⟨ihnames, ihbound, ihtp, ihnm, ihix⟩ :=
            runPolls_no_reshuffle rest q1 rs q hrest hftail h01
          have hnAt : ∀ j, nameAt q1 j = nameAt p j :=
            fun j => nameAt_congr p q1 htp' hnm' j
          have hq1i : q1.index.toNat = p.index.toNat + 1 := by omega
          have hq1len : q1.toPoll.length = p.toPoll.length := by rw [htp']
          refine ⟨?_, ?_, ?_, ?_, ?_⟩
          · show r.1 :: rs.map (fun z => z.1) = _
            simp only [List.length_cons]
            rw [List.range_succ_eq_map, List.map_cons, List.map_map, ihnames,
              hr1', Nat.add_zero]
            congr 1
            apply List.map_congr_left
            intro t _
            show nameAt q1 (q1.index.toNat + 1 + t) = nameAt p (p.index.toNat + 1 + (t + 1))
            rw [hnAt, hq1i, show p.index.toNat + 1 + 1 + t = p.index.toNat + 1 + (t + 1)
              from by omega]
          · intro t ht
            have hlc : (s :: rest).length = rest.length + 1 := rfl
            cases t with
            | zero => omega
            | succ t' =>
              have := ihbound t' (by omega)
              omega
          · exact ihtp.trans htp'
          · exact ihnm.trans hnm'
          · rw [ihix, hix']
            simp only [List.length_cons]
            push_cast
            omega
        · exact Bool.noConfusion hcontra


/-- C5: no repeat within a window.  For a roster with pairwise distinct
names, run one pass: a first polling step (which may itself have begun the
pass by re-shuffling) followed by steps none of which re-shuffled.  The
names `next()` returned are pairwise distinct. -/
theorem no_repeat_within_pass (p : Poller)
    (steps : List ((List Nat → List Nat) × Option Kind))
    (hσ : ∀ s ∈ steps, IsReorder s.1)
    (hnames : (p.participants.map (fun x => x.name)).Nodup)
    (hperm : p.toPoll.Perm (List.range p.participants.length))
    (hidx : -1 ≤ p.index)
    (out : List (String × Bool)) (q : Poller)
    (hrun : runPolls steps p = .ok (out, q))
    (hpass : ∀ r ∈ out.tail, r.2 = false) :
    (out.map (fun r => r.1)).Nodup := by
  rcases steps with _ | ⟨s, rest⟩
  · replace hrun : (Except.ok (([], p)) :
        Except NextErr (List (String × Bool) × Poller)) = .ok (out, q) := hrun
    obtain h' := Except.ok.inj hrun
    have hout : out = [] := (congrArg Prod.fst h').symm
    rw [hout]
    exact List.nodup_nil
  · unfold runPolls at hrun
    rcases hs : stepPoll s.1 s.2 p with e | ⟨r, q1⟩
    · rw [hs] at hrun
      exact Except.noConfusion hrun
    · rw [hs] at hrun
      replace hrun : (match runPolls rest q1 with
        | .error e => (Except.error e :
            Except NextErr (List (String × Bool) × Poller))
        | .ok (rs, q2) => .ok (r :: rs, q2)) = .ok (out, q) := hrun
      rcases hrest : runPolls rest q1 with e | ⟨rs, q2⟩
      · rw [hrest] at hrun
        exact Except.noConfusion hrun
      · rw [hrest] at hrun
        obtain h' := Except.ok.inj hrun
        have hout : out = r :: rs := (congrArg Prod.fst h').symm
        subst hout
        have hftail : ∀ x ∈ rs, x.2 = false := hpass
        obtain ⟨q₁', hnx, htp, hix, hnm⟩ := stepPoll_ok_cases s.1 s.2 p r q1 hs
        have hname := nextR_ok_name s.1 p r.1 q₁' r.2 hnx
        have hnmp : q₁'.participants.map (fun x => x.name) =
            p.participants.map (fun x => x.name) := by
          rcases nextR_ok_cases s.1 p r.1 q₁' r.2 hnx with ⟨hq', -⟩ | ⟨hq', -⟩ <;>
            rw [hq'] <;> rfl
        have h0' : 0 ≤ q₁'.index := by
          rcases nextR_ok_cases s.1 p r.1 q₁' r.2 hnx with ⟨hq', -⟩ | ⟨hq', -⟩ <;>
            rw [hq']
          all_goals show (0 : Int) ≤ p.index + 1
          all_goals omega
        obtain ⟨hlt, hr1⟩ := current_ok_elim q₁' r.1 hname h0'
        have hq10 : 0 ≤ q1.index := by
          rw [hix]
          exact h0'
        have hhead : r.1 = nameAt q1 q1.index.toNat := by
          rw [hr1, nameAt_congr q₁' q1 htp hnm, hix]
        have hlen1 : q1.toPoll.length = q₁'.toPoll.length := by rw [htp]
        have hheadlt : q1.index.toNat < q1.toPoll.length := by
          rw [hix, hlen1]
          omega
        have hq1names : (q1.participants.map (fun x => x.name)).Nodup := by
          rw [hnm, hnmp]
          exact hnames
        have hplen : q1.participants.length = p.participants.length := by
          have hc := congrArg List.length (hnm.trans hnmp)
          rwa [List.length_map, List.length_map] at hc
        have hq1perm : q1.toPoll.Perm (List.range q1.participants.length) := by
          rw [htp, hplen]
          rcases nextR_ok_cases s.1 p r.1 q₁' r.2 hnx with ⟨hq', -⟩ | ⟨hq', -⟩ <;>
            rw [hq']
          · exact hperm
          · exact (shuffle_toPoll_perm s.1 p (hσ s (List.mem_cons_self _ _))).trans hperm
        obtain ⟨ihnames, ihbound, -, -, -⟩ :=
          runPolls_no_reshuffle rest q1 rs q2 hrest hftail hq10
        rw [List.map_cons, List.nodup_cons]
        constructor
        · intro hmem
          rw [ihnames] at hmem
          obtain ⟨t, htr, hteq⟩ := List.mem_map.mp hmem
          have htn : t < rest.length := List.mem_range.mp htr
          have hcontr := nameAt_inj q1 hq1perm hq1names
            q1.index.toNat hheadlt (q1.index.toNat + 1 + t) (ihbound t htn)
            (hhead.symm.trans hteq.symm)
          omega
        · rw [ihnames]
          refine List.Nodup.map_on ?_ (List.nodup_range _)
          intro t₁ ht₁ t₂ ht₂ heq
          have h₁ := List.mem_range.mp ht₁
          have h₂ := List.mem_range.mp ht₂
          have := nameAt_inj q1 hq1perm hq1names
            (q1.index.toNat + 1 + t₁) (ihbound t₁ h₁)
            (q1.index.toNat + 1 + t₂) (ihbound t₂ h₂) heq
          omega


/-- Witness for no-repeat-within-window: two participants, one full pass;
the two returned names are distinct. -/
theorem no_repeat_within_pass_witness :
    ((([("A", false), ("B", false)] : List (String × Bool))).map
      (fun r => r.1)).Nodup := by
  have h := no_repeat_within_pass
    (⟨"f", -1, 0, [⟨"A", 0, 0, 0, 0⟩, ⟨"B", 0, 0, 0, 0⟩], false, [0, 1], 0⟩ : Poller)
    [(id, some .attempted), (id, some .attempted)]
    (by
      intro s hs
      rcases List.mem_cons.mp hs with rfl | hs
      · exact fun l => List.Perm.refl l
      rcases List.mem_cons.mp hs with rfl | hs
      · exact fun l => List.Perm.refl l
      · cases hs)
    (by decide) (by decide) (by decide)
    [("A", false), ("B", false)]
    (⟨"f", 1, 0, [⟨"A", 1, 0, 1, 0⟩, ⟨"B", 1, 0, 1, 0⟩], false, [0, 1], 2⟩ : Poller)
    (by decide) (by decide)
  exact h

theorem foldl_max_le {l : List Int} {a c : Int} (ha : a ≤ c)
    (hl : ∀ x ∈ l, x ≤ c) : l.foldl max a ≤ c := by
  induction l generalizing a with
  | nil => exact ha
  | cons x xs ih =>
    exact ih (max_le ha (hl x (List.mem_cons_self _ _)))
      (fun y hy => hl y (List.mem_cons_of_mem _ hy))

theorem le_foldl_min {l : List Int} {a c : Int} (ha : c ≤ a)
    (hl : ∀ x ∈ l, c ≤ x) : c ≤ l.foldl min a := by
  induction l generalizing a with
  | nil => exact ha
  | cons x xs ih =>
    exact ih (le_min ha (hl x (List.mem_cons_self _ _)))
      (fun y hy => hl y (List.mem_cons_of_mem _ hy))

theorem headD_mem_int {l : List Int} (h : l ≠ []) : l.headD 0 ∈ l := by
  cases l with
  | nil => exact absurd rfl h
  | cons x xs => exact List.mem_cons_self _ _

/-- Under the balance window, the maximum and minimum `polled` values
differ by at most one (and the pairwise form of the same bound holds). -/
theorem balanced_spread (p : Poller) (hbal : Balanced p) :
    maxPolled p - minPolled p ≤ 1 ∧
    (∀ x ∈ p.participants, ∀ y ∈ p.participants, x.polled ≤ y.polled + 1) := by
  obtain ⟨-, hne, -, hvals, -⟩ := hbal
  have hvne : polledVals p ≠ [] := by
    unfold polledVals
    intro hnil
    exact hne (List.map_eq_nil.mp hnil)
  have hvmem : ∀ v ∈ polledVals p, v = p.lastPolled ∨ v = p.lastPolled + 1 := by
    intro v hv
    obtain ⟨x, hx, rfl⟩ := List.mem_map.mp hv
    exact hvals x hx
  have hhd := headD_mem_int hvne
  have hmax : maxPolled p ≤ p.lastPolled + 1 := by
    apply foldl_max_le
    · rcases hvmem _ hhd with h | h <;> omega
    · intro x hx
      rcases hvmem x hx with h | h <;> omega
  have hmin : p.lastPolled ≤ minPolled p := by
    apply le_foldl_min
    · rcases hvmem _ hhd with h | h <;> omega
    · intro x hx
      rcases hvmem x hx with h | h <;> omega
  refine ⟨by omega, fun x hx y hy => ?_⟩
  rcases hvals x hx with h1 | h1 <;> rcases hvals y hy with h2 | h2 <;> omega

/-- After a shuffle of a roster whose `polled` counts pairwise differ by at
most one, every count equals the new floor or the new floor plus one, and
the front participant of the new working set sits exactly at the floor. -/
theorem shuffle_window (σ : List Nat → List Nat) (p : Poller)
    (hσ : IsReorder σ)
    (hperm : p.toPoll.Perm (List.range p.participants.length))
    (hne : p.participants ≠ [])
    (hspread : ∀ x ∈ p.participants, ∀ y ∈ p.participants, x.polled ≤ y.polled + 1) :
    (∀ x ∈ p.participants, x.polled = (p.shuffle σ).lastPolled ∨
      x.polled = (p.shuffle σ).lastPolled + 1) ∧
    (getPart p ((p.shuffle σ).toPoll.getD 0 0)).polled = (p.shuffle σ).lastPolled := by
  have hnpos : 0 < p.participants.length := List.length_pos.mpr hne
  have hlen : p.toPoll.length = p.participants.length := by
    rw [hperm.length_eq, List.length_range]
  have hslen : (p.shuffle σ).toPoll.length = p.toPoll.length :=
    (shuffle_toPoll_perm σ p hσ).length_eq
  have hhd : (p.shuffle σ).toPoll.getD 0 0 ∈ (p.shuffle σ).toPoll :=
    getD_mem_of_lt (by omega)
  have hhdr : (p.shuffle σ).toPoll.getD 0 0 ∈ List.range p.participants.length :=
    (((shuffle_toPoll_perm σ p hσ).trans hperm)).subset hhd
  have hhdlt : (p.shuffle σ).toPoll.getD 0 0 < p.participants.length :=
    List.mem_range.mp hhdr
  have hhdP : getPart p ((p.shuffle σ).toPoll.getD 0 0) ∈ p.participants :=
    getPart_mem p hhdlt
  have hlastP : (p.shuffle σ).lastPolled =
      (getPart p ((p.shuffle σ).toPoll.getD 0 0)).polled := by
    rw [shuffle_lastPolled, headD_eq_getD_zero]
  have hmin : ∀ x ∈ p.participants,
      (getPart p ((p.shuffle σ).toPoll.getD 0 0)).polled ≤ x.polled := by
    intro x hx
    obtain ⟨i, hi, hxi⟩ := List.mem_iff_getElem.mp hx
    have hir : i ∈ List.range p.participants.length := List.mem_range.mpr hi
    have hitp : i ∈ (p.shuffle σ).toPoll :=
      (((shuffle_toPoll_perm σ p hσ).trans hperm)).mem_iff.mpr hir
    have := shuffle_head_min σ p i hitp
    rw [headD_eq_getD_zero] at this
    have hgi : getPart p i = x := by
      unfold getPart
      rw [List.getD_eq_getElem?_getD, List.getElem?_eq_getElem hi]
      exact hxi
    rwa [hgi] at this
  refine ⟨fun x hx => ?_, hlastP.symm⟩
  rw [hlastP]
  have h1 := hmin x hx
  have h2 := hspread x hx _ hhdP
  omega


/-- One fairness step — a `next()` call followed by exactly one outcome
report — succeeds from any balanced state and leaves the state balanced. -/
theorem stepPair_bal (σ : List Nat → List Nat) (k : Kind) (p : Poller)
    (hσ : IsReorder σ) (hbal : Balanced p) :
    ∃ q, stepPair σ k p = .ok q ∧ Balanced q := by
  obtain ⟨hst, hne, hperm, hvals, hidx⟩ := hbal
  have hnpos : 0 < p.participants.length := List.length_pos.mpr hne
  have hlen : p.toPoll.length = p.participants.length := by
    rw [hperm.length_eq, List.length_range]
  have hspread : ∀ x ∈ p.participants, ∀ y ∈ p.participants,
      x.polled ≤ y.polled + 1 := by
    intro x hx y hy
    rcases hvals x hx with h1 | h1 <;> rcases hvals y hy with h2 | h2 <;> omega
  by_cases hc : (p.toPoll.length : Int) ≤ p.index + 1 ∨
      p.lastPolled < (getPart p (p.toPoll.getD (p.index + 1).toNat 0)).polled
  · -- the call re-shuffles
    have hslen : (p.shuffle σ).toPoll.length = p.toPoll.length :=
      (shuffle_toPoll_perm σ p hσ).length_eq
    have hne' : (p.shuffle σ).toPoll ≠ [] := by
      intro hnil
      have : (p.shuffle σ).toPoll.length = 0 := by rw [hnil]; rfl
      omega
    have hnx := nextR_reshuffle σ p hst hc hne'
    obtain ⟨hwvals, hwhead⟩ := shuffle_window σ p hσ hperm hne hspread
    have hnext : p.next σ = .ok (nameAt { p.shuffle σ with index := 0 } 0,
        { p.shuffle σ with index := 0 }) := by
      unfold Poller.next
      rw [hnx]
      rfl
    have hpy : pyIdx ({ p.shuffle σ with index := 0 } : Poller).toPoll.length
        ({ p.shuffle σ with index := 0 } : Poller).index = some 0 := by
      show pyIdx (p.shuffle σ).toPoll.length 0 = some 0
      unfold pyIdx
      rw [if_pos (le_refl 0), if_pos (by exact_mod_cast by omega : (0 : Int) <
        ((p.shuffle σ).toPoll.length : Int))]
      rfl
    have hro : ({ p.shuffle σ with index := 0 } : Poller).recordOutcome k =
        some { ({ p.shuffle σ with index := 0 } : Poller) with
          participants := (p.shuffle σ).participants.set
            ((p.shuffle σ).toPoll.getD 0 0)
            (bump k (getPart p ((p.shuffle σ).toPoll.getD 0 0))),
          totalPolled := (p.shuffle σ).totalPolled + 1 } := by
      simp only [Poller.recordOutcome, hpy, Option.map_some']
      rfl
    have hstep : stepPair σ k p =
        (match ({ p.shuffle σ with index := 0 } : Poller).recordOutcome k with
          | some r => (Except.ok r : Except NextErr Poller)
          | none => Except.error NextErr.indexError) := by
      unfold stepPair
      rw [hnext]
    rw [hro] at hstep
    refine ⟨_, hstep, ?_, ?_, ?_, ?_, ?_⟩
    · exact hst
    · intro hnil
      have h0 : ((p.shuffle σ).participants.set ((p.shuffle σ).toPoll.getD 0 0)
          (bump k (getPart p ((p.shuffle σ).toPoll.getD 0 0)))).length = 0 :=
        congrArg List.length hnil
      rw [List.length_set] at h0
      have : (p.shuffle σ).participants.length = p.participants.length := rfl
      omega
    · show (p.shuffle σ).toPoll.Perm (List.range (((p.shuffle σ).participants.set
        ((p.shuffle σ).toPoll.getD 0 0)
        (bump k (getPart p ((p.shuffle σ).toPoll.getD 0 0)))).length))
      rw [List.length_set]
      exact (shuffle_toPoll_perm σ p hσ).trans hperm
    · intro x hx
      show x.polled = (p.shuffle σ).lastPolled ∨
        x.polled = (p.shuffle σ).lastPolled + 1
      rcases List.mem_or_eq_of_mem_set hx with hx' | rfl
      · exact hwvals x hx'
      · right
        rw [bump_polled, hwhead]
    · show (-1 : Int) ≤ 0
      omega
  · -- the call advances in place
    push_neg at hc
    obtain ⟨hlt, hpo⟩ := hc
    have hnx := nextR_advance σ p hst hidx hlt hpo
    have hnext : p.next σ = .ok (nameAt p (p.index + 1).toNat,
        { p with index := p.index + 1 }) := by
      unfold Poller.next
      rw [hnx]
      rfl
    have hjlt : (p.index + 1).toNat < p.toPoll.length := by omega
    have hidxm : p.toPoll.getD (p.index + 1).toNat 0 ∈ p.toPoll :=
      getD_mem_of_lt hjlt
    have hidxlt : p.toPoll.getD (p.index + 1).toNat 0 < p.participants.length :=
      List.mem_range.mp (hperm.subset hidxm)
    have hselmem : getPart p (p.toPoll.getD (p.index + 1).toNat 0) ∈ p.participants :=
      getPart_mem p hidxlt
    have hselpolled : (getPart p (p.toPoll.getD (p.index + 1).toNat 0)).polled =
        p.lastPolled := by
      rcases hvals _ hselmem with h | h <;> omega
    have hpy : pyIdx ({ p with index := p.index + 1 } : Poller).toPoll.length
        ({ p with index := p.index + 1 } : Poller).index =
        some (p.index + 1).toNat := by
      show pyIdx p.toPoll.length (p.index + 1) = some (p.index + 1).toNat
      unfold pyIdx
      rw [if_pos (by omega : (0 : Int) ≤ p.index + 1), if_pos hlt]
    have hro : ({ p with index := p.index + 1 } : Poller).recordOutcome k =
        some { ({ p with index := p.index + 1 } : Poller) with
          participants := p.participants.set
            (p.toPoll.getD (p.index + 1).toNat 0)
            (bump k (getPart p (p.toPoll.getD (p.index + 1).toNat 0))),
          totalPolled := p.totalPolled + 1 } := by
      simp only [Poller.recordOutcome, hpy, Option.map_some']
      rfl
    have hstep : stepPair σ k p =
        (match ({ p with index := p.index + 1 } : Poller).recordOutcome k with
          | some r => (Except.ok r : Except NextErr Poller)
          | none => Except.error NextErr.indexError) := by
      unfold stepPair
      rw [hnext]
    rw [hro] at hstep
    refine ⟨_, hstep, ?_, ?_, ?_, ?_, ?_⟩
    · exact hst
    · intro hnil
      have h0 : (p.participants.set (p.toPoll.getD (p.index + 1).toNat 0)
          (bump k (getPart p (p.toPoll.getD (p.index + 1).toNat 0)))).length = 0 :=
        congrArg List.length hnil
      rw [List.length_set] at h0
      omega
    · show p.toPoll.Perm (List.range ((p.participants.set
        (p.toPoll.getD (p.index + 1).toNat 0)
        (bump k (getPart p (p.toPoll.getD (p.index + 1).toNat 0)))).length))
      rw [List.length_set]
      exact hperm
    · intro x hx
      show x.polled = p.lastPolled ∨ x.polled = p.lastPolled + 1
      rcases List.mem_or_eq_of_mem_set hx with hx' | rfl
      · exact hvals x hx'
      · right
        rw [bump_polled, hselpolled]
    · show (-1 : Int) ≤ p.index + 1
      omega


theorem runPairs_bal : ∀ (steps : List ((List Nat → List Nat) × Kind)) (p : Poller),
    (∀ s ∈ steps, IsReorder s.1) → Balanced p →
    ∃ q, runPairs steps p = .ok q ∧ Balanced q
  | [], p, _, hbal => ⟨p, rfl, hbal⟩
  | s :: rest, p, hσ, hbal => by
    obtain ⟨q1, hs, hbal1⟩ :=
      stepPair_bal s.1 s.2 p (hσ s (List.mem_cons_self _ _)) hbal
    obtain ⟨q, hr, hbalq⟩ := runPairs_bal rest q1
      (fun x hx => hσ x (List.mem_cons_of_mem _ hx)) hbal1
    refine ⟨q, ?_, hbalq⟩
    unfold runPairs
    rw [hs]
    exact hr

/-- From any balanced state, `next()` succeeds and does not touch the
roster's counters. -/
theorem next_ok_of_balanced (σ : List Nat → List Nat) (q : Poller)
    (hσ : IsReorder σ) (hbal : Balanced q) :
    ∃ s r, q.next σ = .ok (s, r) ∧ r.participants = q.participants := by
  obtain ⟨hst, hne, hperm, hvals, hidx⟩ := hbal
  have hnpos : 0 < q.participants.length := List.length_pos.mpr hne
  have hlen : q.toPoll.length = q.participants.length := by
    rw [hperm.length_eq, List.length_range]
  by_cases hc : (q.toPoll.length : Int) ≤ q.index + 1 ∨
      q.lastPolled < (getPart q (q.toPoll.getD (q.index + 1).toNat 0)).polled
  · have hne' : (q.shuffle σ).toPoll ≠ [] := by
      have hsl := (shuffle_toPoll_perm σ q hσ).length_eq
      intro hnil
      have h0 : (q.shuffle σ).toPoll.length = 0 := by rw [hnil]; rfl
      omega
    refine ⟨nameAt { q.shuffle σ with index := 0 } 0,
      { q.shuffle σ with index := 0 }, ?_, rfl⟩
    unfold Poller.next
    rw [nextR_reshuffle σ q hst hc hne']
    rfl
  · push_neg at hc
    refine ⟨nameAt q (q.index + 1).toNat, { q with index := q.index + 1 }, ?_, rfl⟩
    unfold Poller.next
    rw [nextR_advance σ q hst hidx hc.1 hc.2]
    rfl

theorem load_ok_ne (fname : String) (lines : List String) (p₀ : Poller)
    (h : (Poller.init fname).load lines = .ok p₀) :
    p₀.participants ≠ [] := by
  rcases hp : parseLines fname lines with e | parsed
  · have := (load_of_parseLines_error fname lines e hp).symm.trans h
    exact Except.noConfusion this
  · by_cases hz : parsed.length = 0
    · have := (load_of_parseLines_ok_pos fname lines parsed hp hz).symm.trans h
      exact Except.noConfusion this
    · have h2 := (load_of_parseLines_ok_neg fname lines parsed hp hz).symm.trans h
      obtain rfl := Except.ok.inj h2
      intro hnil
      have hplen : parsed.length = 0 := congrArg List.length hnil
      exact hz hplen

/-- Starting an iteration session from a loaded roster whose counts differ
pairwise by at most one yields a balanced state. -/
theorem iter_balanced (σ₀ : List Nat → List Nat) (p₀ : Poller)
    (hσ₀ : IsReorder σ₀) (hne : p₀.participants ≠ [])
    (hperm : p₀.toPoll.Perm (List.range p₀.participants.length))
    (hspread : ∀ x ∈ p₀.participants, ∀ y ∈ p₀.participants,
      x.polled ≤ y.polled + 1) :
    Balanced (p₀.iter σ₀) := by
  refine ⟨rfl, hne, ?_, ?_, ?_⟩
  · show (p₀.shuffle σ₀).toPoll.Perm
      (List.range (p₀.shuffle σ₀).participants.length)
    exact (shuffle_toPoll_perm σ₀ p₀ hσ₀).trans hperm
  · intro x hx
    show x.polled = (p₀.shuffle σ₀).lastPolled ∨
      x.polled = (p₀.shuffle σ₀).lastPolled + 1
    exact (shuffle_window σ₀ p₀ hσ₀ hperm hne hspread).1 x hx
  · show (-1 : Int) ≤ -1
    omega

/-- C1: balance invariant.  Starting from a loaded roster whose `polled`
counts pairwise differ by at most one (spread at most 1), begin iteration
and run any sequence of `next()` calls each followed by exactly one
outcome report, with no intervening `halt()`.  At every point — after any
number of completed steps, and also in the middle of a step right after
the `next()` call — the maximum `polled` among the participants minus the
minimum is at most 1, and every step succeeds. -/
theorem balance_invariant (fname : String) (lines : List String) (p₀ : Poller)
    (hload : (Poller.init fname).load lines = .ok p₀)
    (hspread : ∀ x ∈ p₀.participants, ∀ y ∈ p₀.participants,
      x.polled ≤ y.polled + 1)
    (σ₀ : List Nat → List Nat) (hσ₀ : IsReorder σ₀)
    (steps : List ((List Nat → List Nat) × Kind))
    (hσ : ∀ s ∈ steps, IsReorder s.1) (t : Nat) :
    ∃ q, runPairs (steps.take t) (p₀.iter σ₀) = .ok q ∧
      maxPolled q - minPolled q ≤ 1 ∧
      (∀ x ∈ q.participants, ∀ y ∈ q.participants, x.polled ≤ y.polled + 1) ∧
      (∀ σ' : List Nat → List Nat, IsReorder σ' →
        ∃ s r, q.next σ' = .ok (s, r) ∧ maxPolled r - minPolled r ≤ 1) := by
  have hne := load_ok_ne fname lines p₀ hload
  have hperm : p₀.toPoll.Perm (List.range p₀.participants.length) := by
    rw [load_ok_shape fname lines p₀ hload]
  have hbal0 := iter_balanced σ₀ p₀ hσ₀ hne hperm hspread
  obtain ⟨q, hrun, hbal⟩ := runPairs_bal (steps.take t) (p₀.iter σ₀)
    (fun s hs => hσ s (List.mem_of_mem_take hs)) hbal0
  obtain ⟨hsp1, hsp2⟩ := balanced_spread q hbal
  refine ⟨q, hrun, hsp1, hsp2, fun σ' hσ' => ?_⟩
  obtain ⟨s, r, hnext, hparts⟩ := next_ok_of_balanced σ' q hσ' hbal
  refine ⟨s, r, hnext, ?_⟩
  have hvs : polledVals r = polledVals q := by
    unfold polledVals
    rw [hparts]
  have hmax : maxPolled r = maxPolled q := by
    unfold maxPolled
    rw [hvs]
  have hmin : minPolled r = minPolled q := by
    unfold minPolled
    rw [hvs]
  omega

/-- Witness for the balance invariant: two participants, three completed
steps (the third begins a new pass); the spread stays at most 1. -/
theorem balance_invariant_witness :
    ∃ q, runPairs (([(id, Kind.attempted), (id, Kind.attempted),
        (id, Kind.attempted)]).take 3)
        ((⟨"f", -1, 0, [⟨"A", 0, 0, 0, 0⟩, ⟨"B", 0, 0, 0, 0⟩],
          false, [0, 1], 0⟩ : Poller).iter id) = .ok q ∧
      maxPolled q - minPolled q ≤ 1 := by
  obtain ⟨q, h1, h2, -, -⟩ := balance_invariant "f" ["A,0,0,0,0", "B,0,0,0,0"]
    (⟨"f", -1, 0, [⟨"A", 0, 0, 0, 0⟩, ⟨"B", 0, 0, 0, 0⟩], false, [0, 1], 0⟩ : Poller)
    (by decide) (by decide) id (fun l => List.Perm.refl l)
    [(id, Kind.attempted), (id, Kind.attempted), (id, Kind.attempted)]
    (by
      intro s hs
      rcases List.mem_cons.mp hs with rfl | hs
      · exact fun l => List.Perm.refl l
      rcases List.mem_cons.mp hs with rfl | hs
      · exact fun l => List.Perm.refl l
      rcases List.mem_cons.mp hs with rfl | hs
      · exact fun l => List.Perm.refl l
      · cases hs)
    3
  exact ⟨q, h1, h2⟩

end RandoPoll
